import Mathlib

/-!
# cisim: include-directive scanner and case-insensitive path index

A shallow embedding of `cisim.cpp`.  Bytes (`char`) are natural numbers; a
`std::string`, the file content and the native string of an `fs::path` are
lists of bytes.

* The scanner is embedded method by method. A `Parser` is its buffer and the offset
  of its cursor; the one read that the source makes at `data.end()` yields a byte
  `pastEnd` that every function takes as an argument.
* The functions of `<cctype>` and `std::filesystem` that the source calls are
  embedded as they behave in the "C" locale on a POSIX system: paths are cut at `/`,
  an entry is found by walking the names of a path from the root or the current
  directory, and `symlink` refuses a path that names an entry. A function that can
  throw returns an `Option`, `none` being the exception.
* `std::map` is the list of its pairs in the order of insertion.
-/

namespace Cisim

/-! ## The scanner (`class Parser`) -/

/-- The `isspace` of `<cctype>` in the "C" locale: space, `\t`, `\n`, `\v`, `\f`, `\r`,
and no other byte. -/
def isspace (c : Nat) : Bool :=
  c == 32 || (9 ≤ c && c ≤ 13)

/-- The result of `Parser::tryGetImport` (`enum struct ImportType`). -/
inductive ImportType where
  | fail
  | quotes
  | angles
  deriving DecidableEq, Repr

/-- The state of a `Parser`: the file content `data` and the `cursor`, kept as the
offset of the pointer from `data.begin()`; `&*data.end()` is offset `data.length`. -/
structure Parser where
  data : List Nat
  cursor : Nat
  deriving DecidableEq, Repr

/-- The bytes from the cursor up to `data.end()`. -/
def Parser.rest (p : Parser) : List Nat :=
  p.data.drop p.cursor

/-- The loop `while (cursor != &*data.end() && cond(*cursor)) cursor++;`, run over the
bytes `l` that lie between the cursor and the end; it returns the new cursor. -/
def skipLoop (cond : Nat → Bool) : List Nat → Nat → Nat
  | [], cursor => cursor
  | c :: l, cursor => if cond c then skipLoop cond l (cursor + 1) else cursor

/-- The method `Parser::skipAllWhitespace`. -/
def Parser.skipAllWhitespace (p : Parser) : Parser :=
  { p with cursor := skipLoop isspace p.rest p.cursor }

/-- The loop condition of `skipNonlinebreakWhitespace` on the byte read:
`isspace(*cursor) && *cursor != '\n' && *cursor != '\r'`. -/
def isNonlinebreakSpace (c : Nat) : Bool :=
  isspace c && c != 10 && c != 13

/-- The loop condition of `skipUntilNextLine` on the byte read:
`*cursor != '\n' && *cursor != '\r'`. -/
def notLinebreak (c : Nat) : Bool :=
  c != 10 && c != 13

/-- The method `Parser::skipNonlinebreakWhitespace`. -/
def Parser.skipNonlinebreakWhitespace (p : Parser) : Parser :=
  { p with cursor := skipLoop isNonlinebreakSpace p.rest p.cursor }

/-- The method `Parser::skipUntilNextLine`. -/
def Parser.skipUntilNextLine (p : Parser) : Parser :=
  { p with cursor := skipLoop notLinebreak p.rest p.cursor }

/-- The loop of `Parser::tryParse` over the characters `str` still to match and the
bytes `l` from `tmpcursor` to the end: `none` when the end is reached or a byte
differs, otherwise the final `tmpcursor`. -/
def tryParseLoop : List Nat → List Nat → Nat → Option Nat
  | [], _, tmpcursor => some tmpcursor
  | _ :: _, [], _ => none
  | s :: str, c :: l, tmpcursor =>
    if c != s then none else tryParseLoop str l (tmpcursor + 1)

/-- The method `Parser::tryParse`: on success the cursor moves past `str`, on failure
it stays. `str` is the C string without its terminating NUL. -/
def Parser.tryParse (p : Parser) (str : List Nat) : Bool × Parser :=
  match tryParseLoop str p.rest p.cursor with
  | none => (false, p)
  | some tmpcursor => (true, { p with cursor := tmpcursor })

/-- The loop of `Parser::tryReadImportFileName`: it appends bytes to `out` up to a
line break, `endChar` or the end, and returns the new cursor and `out`. -/
def readLoop (endChar : Nat) : List Nat → Nat → List Nat → Nat × List Nat
  | [], cursor, out => (cursor, out)
  | c :: l, cursor, out =>
    if c != 10 && c != 13 && c != endChar then readLoop endChar l (cursor + 1) (out ++ [c])
    else (cursor, out)

/-- The value of `*cursor`. At `data.end()` the read is out of bounds; `pastEnd` is
the byte such a read yields. -/
def Parser.deref (pastEnd : Nat) (p : Parser) : Nat :=
  p.rest.headD pastEnd

/-- The method `Parser::tryReadImportFileName`. -/
def Parser.tryReadImportFileName (pastEnd : Nat) (p : Parser) (out : List Nat)
    (endChar : Nat) : Bool × Parser × List Nat :=
  let r := readLoop endChar p.rest p.cursor out
  let p1 : Parser := { p with cursor := r.1 }
  (p1.deref pastEnd == endChar, p1, r.2)

/-- The method `Parser::atEnd`. -/
def Parser.atEnd (p : Parser) : Bool :=
  p.cursor == p.data.length

/-- The C string `"#"`. -/
def strHash : List Nat := [35]

/-- The C string `"include"`. -/
def strInclude : List Nat := [105, 110, 99, 108, 117, 100, 101]

/-- The byte `'"'`. -/
def chQuote : Nat := 34

/-- The byte `'<'`. -/
def chLess : Nat := 60

/-- The byte `'>'`. -/
def chGreater : Nat := 62

/-- The method `Parser::tryGetImport`: the result, the parser after the call and the
string `out` after the call. -/
def Parser.tryGetImport (pastEnd : Nat) (p : Parser) (out : List Nat) :
    ImportType × Parser × List Nat :=
  let p := p.skipAllWhitespace
  let hash := p.tryParse strHash
  if !hash.1 then (ImportType.fail, hash.2.skipUntilNextLine, out) else
  let p := hash.2.skipNonlinebreakWhitespace
  let incl := p.tryParse strInclude
  if !incl.1 then (ImportType.fail, incl.2.skipUntilNextLine, out) else
  let p := incl.2.skipNonlinebreakWhitespace
  let quote := p.tryParse [chQuote]
  if quote.1 then
    let name := quote.2.tryReadImportFileName pastEnd out chQuote
    if !name.1 then (ImportType.fail, name.2.1.skipUntilNextLine, name.2.2) else
    let close := name.2.1.tryParse [chQuote]
    if !close.1 then (ImportType.fail, close.2.skipUntilNextLine, name.2.2) else
    (ImportType.quotes, close.2, name.2.2)
  else
    let less := quote.2.tryParse [chLess]
    if less.1 then
      let name := less.2.tryReadImportFileName pastEnd out chGreater
      if !name.1 then (ImportType.fail, name.2.1.skipUntilNextLine, name.2.2) else
      let close := name.2.1.tryParse [chGreater]
      if !close.1 then (ImportType.fail, close.2.skipUntilNextLine, name.2.2) else
      (ImportType.angles, close.2, name.2.2)
    else (ImportType.fail, less.2.skipUntilNextLine, out)

/-- The scan loop of `main` over one file,
`while (!p.atEnd()) { std::string name; const ImportType it = p.tryGetImport(name); ... }`,
cut off after `fuel` iterations: the result and the name of every call, in order, and
the parser at the exit. -/
def scanLoop (pastEnd : Nat) : Nat → Parser → List (ImportType × List Nat) × Parser
  | 0, p => ([], p)
  | fuel + 1, p =>
    if p.atEnd then ([], p)
    else
      let r := p.tryGetImport pastEnd []
      let s := scanLoop pastEnd fuel r.2.1
      ((r.1, r.2.2) :: s.1, s.2)

/-- The scan of a whole file: `Parser p(file)` puts the cursor at the start, and the
loop is given one iteration for every byte. -/
def scanFile (pastEnd : Nat) (data : List Nat) : List (ImportType × List Nat) × Parser :=
  scanLoop pastEnd data.length ⟨data, 0⟩

/-- The calls on which the body of the scan loop acts: those whose result is `quotes`
or `angles`. -/
def candidates (results : List (ImportType × List Nat)) : List (ImportType × List Nat) :=
  results.filter (fun r => r.1 != ImportType.fail)

/-- The misspelt line `#inlude "x.h"`, without its line break. -/
def inludeLine : List Nat :=
  [35, 105, 110, 108, 117, 100, 101, 32, 34, 120, 46, 104, 34]

/-- The parser `q` runs on the bytes of `d` from offset `c` on; `embed d c q` is the
parser on `d` at the same place. -/
def Parser.embed (d : List Nat) (c : Nat) (q : Parser) : Parser :=
  ⟨d, c + q.cursor⟩

/-- The state `q` comes after `p` on the same buffer, inside the buffer if `p` is. -/
def Parser.Reaches (p q : Parser) : Prop :=
  q.data = p.data ∧ p.cursor ≤ q.cursor ∧ (p.cursor ≤ p.data.length → q.cursor ≤ p.data.length)

/-- The bytes of a string literal, for writing buffers and paths legibly. -/
def bytes (s : String) : List Nat :=
  s.toList.map Char.toNat

/-! ## Paths (`fs::path` on a POSIX system)

The native string of a path is a list of bytes, the separator is `/` (47). -/

/-- `std::tolower` in the "C" locale, on an `unsigned char`. -/
def tolower (c : Nat) : Nat :=
  if 65 ≤ c ∧ c ≤ 90 then c + 32 else c

/-- The function `lowerstring`: `std::transform` with `tolower` over a copy. -/
def lowerstring (str : List Nat) : List Nat :=
  str.map tolower

/-- `path::is_absolute()`: the path starts with the root directory. -/
def is_absolute (p : List Nat) : Bool :=
  p.head? == some 47

/-- `path::filename()`: the bytes behind the last separator. -/
def filename (p : List Nat) : List Nat :=
  (p.reverse.takeWhile (fun c => c != 47)).reverse

/-- `path::parent_path()`: the path without its last element and the separators in
front of it; the root directory is its own parent. -/
def parent_path (p : List Nat) : List Nat :=
  let upToSlash := p.reverse.dropWhile (fun c => c != 47)
  let stripped := upToSlash.dropWhile (fun c => c == 47)
  if stripped = [] then (if upToSlash = [] then [] else [47]) else stripped.reverse

/-- `operator/` of `fs::path`: an absolute right operand replaces the left one;
otherwise a separator is put in between when the left one ends in a filename. -/
def pathAppend (p q : List Nat) : List Nat :=
  if is_absolute q then q
  else if p = [] ∨ p.getLast? = some 47 then p ++ q
  else p ++ 47 :: q

/-- The loop that cuts a path into its elements; `cur` is the element being read. -/
def componentsLoop : List Nat → List Nat → List (List Nat)
  | [], cur => if cur = [] then [] else [cur]
  | c :: p, cur =>
    if c = 47 then (if cur = [] then componentsLoop p [] else cur :: componentsLoop p [])
    else componentsLoop p (cur ++ [c])

/-- The elements of a path between its separators, empty ones left out. -/
def components (p : List Nat) : List (List Nat) :=
  componentsLoop p []

/-- The path string of a location given by its elements from the root. -/
def render : List (List Nat) → List Nat
  | [] => [47]
  | [name] => 47 :: name
  | name :: loc => 47 :: name ++ render loc

/-- A name between separators: not empty and without a separator. -/
def ProperName (name : List Nat) : Prop :=
  name ≠ [] ∧ ∀ c ∈ name, c ≠ 47

/-! ## The file system (`std::filesystem` on a POSIX system)

The state is the table of the entries by location, a location being the list of the
names from the root down, and the current directory. -/

/-- What an entry is. A symlink records its target and whether it was made by
`create_directory_symlink`. -/
inductive Node where
  | file
  | directory
  | symlink (target : List Nat) (directoryStyle : Bool)
  deriving DecidableEq, Repr

/-- The state of the file system. The first entry of `entries` for a location counts;
the root, location `[]`, is a directory. `cwd` is the current directory, an absolute
path. -/
structure FileSystem where
  entries : List (List (List Nat) × Node)
  cwd : List Nat
  deriving DecidableEq, Repr

/-- The first node listed for a location. -/
def lookupNode (loc : List (List Nat)) : List (List (List Nat) × Node) → Option Node
  | [] => none
  | e :: es => if e.1 = loc then some e.2 else lookupNode loc es

/-- The entry at a location. -/
def FileSystem.node (fs : FileSystem) (loc : List (List Nat)) : Option Node :=
  if loc = [] then some Node.directory else lookupNode loc fs.entries

/-- Where a path leads: to an entry; to a name missing in an existing directory; to
nothing (`ENOENT`, `ENOTDIR`); or round too many links (`ELOOP`, `ENAMETOOLONG`). -/
inductive WalkResult where
  | found (loc : List (List Nat))
  | missingLast (loc : List (List Nat))
  | notFound
  | tooLong
  deriving DecidableEq, Repr

/-- Path resolution: from the directory `cur` along the elements `names`, one unit of
`fuel` for every element read. A symlink is followed unless it is the last element and
`followLast` is off. -/
def walk (fs : FileSystem) (followLast : Bool) :
    Nat → List (List Nat) → List (List Nat) → WalkResult
  | _, cur, [] => WalkResult.found cur
  | 0, _, _ :: _ => WalkResult.tooLong
  | fuel + 1, cur, name :: rest =>
    if name = [46] then walk fs followLast fuel cur rest
    else if name = [46, 46] then walk fs followLast fuel cur.dropLast rest
    else
      match fs.node (cur ++ [name]) with
      | none => if rest = [] then WalkResult.missingLast (cur ++ [name]) else WalkResult.notFound
      | some Node.file => if rest = [] then WalkResult.found (cur ++ [name]) else WalkResult.notFound
      | some Node.directory => walk fs followLast fuel (cur ++ [name]) rest
      | some (Node.symlink target _) =>
        if rest = [] ∧ followLast = false then WalkResult.found (cur ++ [name])
        else if target = [] then WalkResult.notFound
        else walk fs followLast fuel (if is_absolute target then [] else cur)
          (components target ++ rest)

/-- The number of elements a path resolution may read. -/
def walkFuel : Nat := 4096

/-- Resolution of a path string, from the root or from the current directory. -/
def FileSystem.locate (fs : FileSystem) (followLast : Bool) (p : List Nat) : WalkResult :=
  if p = [] then WalkResult.notFound
  else walk fs followLast walkFuel (if is_absolute p then [] else components fs.cwd)
    (components p)

/-- `fs::symlink_status(p)`, as the entry that `p` names itself; `none` is "not found". -/
def symlink_status (fs : FileSystem) (p : List Nat) : Option Node :=
  match fs.locate false p with
  | WalkResult.found loc => fs.node loc
  | _ => none

/-- `fs::status(p)`, the entry after following symlinks: the outer `none` is a thrown
`filesystem_error`, the inner `none` is "not found". -/
def status (fs : FileSystem) (p : List Nat) : Option (Option Node) :=
  match fs.locate true p with
  | WalkResult.found loc => some (fs.node loc)
  | WalkResult.tooLong => none
  | _ => some none

/-- `fs::exists(p)`; `none` is a thrown `filesystem_error`. -/
def pathExists (fs : FileSystem) (p : List Nat) : Option Bool :=
  (status fs p).map Option.isSome

/-- `fs::is_directory(p)`; `none` is a thrown `filesystem_error`. -/
def is_directory (fs : FileSystem) (p : List Nat) : Option Bool :=
  (status fs p).map (fun n => n == some Node.directory)

/-- `directory_entry::is_symlink()` of the entry with path `p`. -/
def is_symlink (fs : FileSystem) (p : List Nat) : Bool :=
  match symlink_status fs p with
  | some (Node.symlink _ _) => true
  | _ => false

/-- `fs::canonical(p)`: the absolute path of the entry without symlinks, `.` and `..`;
`none` is a thrown `filesystem_error` (the entry does not exist). -/
def canonical (fs : FileSystem) (p : List Nat) : Option (List Nat) :=
  match fs.locate true p with
  | WalkResult.found loc => some (render loc)
  | _ => none

/-- The file system with one more entry at the end of the table. -/
def FileSystem.addEntry (fs : FileSystem) (loc : List (List Nat)) (n : Node) : FileSystem :=
  { fs with entries := fs.entries ++ [(loc, n)] }

/-- The system call `symlink(target, link)`: it fails when `link` names an entry
of any kind (`EEXIST`) or its directory cannot be reached; otherwise the link is the
one new entry. `none` is a thrown `filesystem_error`. -/
def symlinkCall (fs : FileSystem) (target link : List Nat) (directoryStyle : Bool) :
    Option FileSystem :=
  match fs.locate false link with
  | WalkResult.missingLast loc =>
    some (fs.addEntry loc (Node.symlink target directoryStyle))
  | _ => none

/-- `fs::create_symlink(to, new_symlink)`. -/
def create_symlink (fs : FileSystem) (target new_symlink : List Nat) : Option FileSystem :=
  symlinkCall fs target new_symlink false

/-- `fs::create_directory_symlink(to, new_symlink)`. -/
def create_directory_symlink (fs : FileSystem) (target new_symlink : List Nat) :
    Option FileSystem :=
  symlinkCall fs target new_symlink true

/-! ## The index (`class RealNames`) -/

/-- `std::map::contains` on the map kept as the list of its pairs. -/
def mapContains (m : List (List Nat × List Nat)) (key : List Nat) : Bool :=
  m.any (fun kv => kv.1 == key)

/-- `std::map::at`: the value of the key; `none` is a thrown `std::out_of_range`. -/
def mapAt (m : List (List Nat × List Nat)) (key : List Nat) : Option (List Nat) :=
  (m.find? (fun kv => kv.1 == key)).map (fun kv => kv.2)

/-- `std::map::emplace`: the pair is inserted only if the map has no such key. -/
def mapEmplace (m : List (List Nat × List Nat)) (key value : List Nat) :
    List (List Nat × List Nat) :=
  if mapContains m key then m else m ++ [(key, value)]

/-- The object `RealNames`: the member `realnames`. -/
structure RealNames where
  realnames : List (List Nat × List Nat)
  deriving DecidableEq, Repr

/-- The loop of the constructor of `RealNames` over the entries `des` that
`fs::recursive_directory_iterator(dir)` yields, in that order. `none` is an exception
thrown by `fs::canonical`. -/
def RealNames.constructLoop (fs : FileSystem) :
    List (List Nat) → List (List Nat × List Nat) → Option (List (List Nat × List Nat))
  | [], realnames => some realnames
  | de :: des, realnames =>
    if !is_symlink fs de then
      match canonical fs de with
      | none => none
      | some path => RealNames.constructLoop fs des (mapEmplace realnames (lowerstring path) path)
    else RealNames.constructLoop fs des realnames

/-- The constructor `RealNames::RealNames`, given the entries `des` that the recursive
iteration of `dir` yields. -/
def RealNames.construct (fs : FileSystem) (des : List (List Nat)) : Option RealNames :=
  (RealNames.constructLoop fs des []).map RealNames.mk

/-- The key that `realNameRegistered` and `realName` look up:
`lowerstring((fs::canonical(path.parent_path()) / path.filename()).string())`;
`none` is an exception thrown by `fs::canonical`. -/
def lookupKey (fs : FileSystem) (path : List Nat) : Option (List Nat) :=
  (canonical fs (parent_path path)).map
    (fun parent => lowerstring (pathAppend parent (filename path)))

/-- The method `RealNames::realNameRegistered`; `none` is a thrown exception. -/
def RealNames.realNameRegistered (self : RealNames) (fs : FileSystem) (path : List Nat) :
    Option Bool :=
  (lookupKey fs path).map (mapContains self.realnames)

/-- The method `RealNames::realName`; `none` is a thrown exception. -/
def RealNames.realName (self : RealNames) (fs : FileSystem) (path : List Nat) :
    Option (List Nat) :=
  (lookupKey fs path).bind (mapAt self.realnames)

/-- A line printed by `createSymlinkIfNecessary`: the mapping `real <- referredToAs`,
or the report of a caught exception. -/
inductive Output where
  | mapping (real referredToAs : List Nat)
  | ignoredError
  deriving DecidableEq, Repr

/-- The method `RealNames::createSymlinkIfNecessary`: the file system and the lines
printed after the call. Every exception is caught inside. -/
def RealNames.createSymlinkIfNecessary (self : RealNames) (fs : FileSystem)
    (referredToAs : List Nat) : FileSystem × List Output :=
  match self.realNameRegistered fs referredToAs with
  | none => (fs, [Output.ignoredError])
  | some false => (fs, [])
  | some true =>
    match self.realName fs referredToAs with
    | none => (fs, [Output.ignoredError])
    | some rn =>
      match pathExists fs referredToAs with
      | none => (fs, [Output.ignoredError])
      | some true => (fs, [])
      | some false =>
        match is_directory fs rn with
        | none => (fs, [Output.mapping rn referredToAs, Output.ignoredError])
        | some isDir =>
          match (if isDir then create_directory_symlink fs rn referredToAs
            else create_symlink fs rn referredToAs) with
          | none => (fs, [Output.mapping rn referredToAs, Output.ignoredError])
          | some fs1 => (fs1, [Output.mapping rn referredToAs])

/-! ## A small tree for the examples -/

/-- A tree with the directory `/r`, the files `/r/a.h` and `/r/A.h`, the directory
`/r/Src` and a dangling symlink `/r/LOST.H`. -/
def sampleFs : FileSystem :=
  { entries :=
      [([bytes "r"], Node.directory),
        ([bytes "r", bytes "a.h"], Node.file),
        ([bytes "r", bytes "A.h"], Node.file),
        ([bytes "r", bytes "Src"], Node.directory),
        ([bytes "r", bytes "lost.h"], Node.file),
        ([bytes "r", bytes "LOST.H"], Node.symlink (bytes "gone") false)],
    cwd := bytes "/" }

/-- The entries of `/r` in the order of one iteration. -/
def sampleEntries : List (List Nat) :=
  [bytes "/r/a.h", bytes "/r/A.h", bytes "/r/Src", bytes "/r/lost.h", bytes "/r/LOST.H"]

/-- The index that the constructor builds from `sampleEntries`. -/
def sampleIndex : RealNames :=
  ⟨[(bytes "/r/a.h", bytes "/r/a.h"), (bytes "/r/src", bytes "/r/Src"),
    (bytes "/r/lost.h", bytes "/r/lost.h")]⟩

/-- The sample tree at an earlier time, when it still had the file `/r/Ghost.h`. -/
def ghostFs : FileSystem :=
  sampleFs.addEntry [bytes "r", bytes "Ghost.h"] Node.file

/-- The index that the constructor builds from the one entry `/r/Ghost.h` of `ghostFs`. -/
def ghostIndex : RealNames :=
  ⟨[(bytes "/r/ghost.h", bytes "/r/Ghost.h")]⟩

/-! ## The driver (`main`) -/

/-- The state that the loops of `main` carry: the file system, the lines printed by
`createSymlinkIfNecessary`, and the arguments of its calls so far, in order. -/
structure Driver where
  fs : FileSystem
  printed : List Output
  calls : List (List Nat)
  deriving DecidableEq, Repr

/-- One call `realNames.createSymlinkIfNecessary(referredToAs)` made by `main`. -/
def Driver.call (realNames : RealNames) (st : Driver) (referredToAs : List Nat) : Driver :=
  { fs := (realNames.createSymlinkIfNecessary st.fs referredToAs).1,
    printed := st.printed ++ (realNames.createSymlinkIfNecessary st.fs referredToAs).2,
    calls := st.calls ++ [referredToAs] }

/-- The body of the scan loop of `main` behind `p.tryGetImport(name)`: for `quotes` one
call with `canonicalpath.parent_path() / name`, for `angles` the loop over `libpaths`
with a call for `libpath / name`, for `fail` nothing. -/
def handleImport (realNames : RealNames) (canonicalpath : List Nat)
    (libpaths : List (List Nat)) (st : Driver) (it : ImportType) (name : List Nat) : Driver :=
  if it = ImportType.quotes then
    st.call realNames (pathAppend (parent_path canonicalpath) name)
  else if it = ImportType.angles then
    libpaths.foldl (fun s libpath => s.call realNames (pathAppend libpath name)) st
  else st

/-- The scan loop of `main` over the file `canonicalpath`, with its body, cut off after
`fuel` iterations. -/
def mainScanLoop (realNames : RealNames) (canonicalpath : List Nat)
    (libpaths : List (List Nat)) (pastEnd : Nat) : Nat → Parser → Driver → Driver
  | 0, _, st => st
  | fuel + 1, p, st =>
    if p.atEnd then st
    else
      mainScanLoop realNames canonicalpath libpaths pastEnd fuel
        (p.tryGetImport pastEnd []).2.1
        (handleImport realNames canonicalpath libpaths st
          (p.tryGetImport pastEnd []).1 (p.tryGetImport pastEnd []).2.2)

/-- The first statements of the entry loop of `main` for the entry `de`:
`canonicalpath = fs::canonical(de.path())` and
`realNames.createSymlinkIfNecessary(lowerstring(canonicalpath.string()))`. `none` is
the exception of `fs::canonical`, which ends `main`. -/
def selfCasePass (realNames : RealNames) (st : Driver) (de : List Nat) : Option Driver :=
  (canonical st.fs de).map (fun canonicalpath => st.call realNames (lowerstring canonicalpath))

/-- A tree whose root directory `/R` has an upper-case name, with the directory
`/R/Src`. -/
def upperFs : FileSystem :=
  { entries := [([bytes "R"], Node.directory), ([bytes "R", bytes "Src"], Node.directory)],
    cwd := bytes "/" }

/-- The index that the constructor builds from the one entry `/R/Src` of `upperFs`. -/
def upperIndex : RealNames :=
  ⟨[(bytes "/r/src", bytes "/R/Src")]⟩

/-- The state `q` comes after `p` on the same buffer without passing the offset `B`, if
`p` is not behind `B` and the byte at `B` is a line break. -/
def Parser.LineBound (B : Nat) (p q : Parser) : Prop :=
  q.data = p.data ∧
    ((∃ lb, p.data[B]? = some lb ∧ (lb = 10 ∨ lb = 13)) → p.cursor ≤ B → q.cursor ≤ B)

/-- Every byte of `u` that is not whitespace has a line break behind it in `u`: a
scanner that starts in `u` and gives up on a line comes to rest inside `u`. -/
def SafePrefix (u : List Nat) : Prop :=
  ∀ i x, u[i]? = some x → isspace x = false →
    ∃ (j : Nat) (lb : Nat), i < j ∧ u[j]? = some lb ∧ (lb = 10 ∨ lb = 13)

/-- The line `// #include "a.h"`: a well-formed directive behind the start of a
comment. -/
def commentedDirective : List Nat :=
  [47, 47, 32] ++ strHash ++ strInclude ++ [32] ++ [chQuote] ++ [97, 46, 104] ++ [chQuote]

/-! ## Lemmas on the scanner loops -/

theorem skipLoop_append (cond : Nat → Bool) (pre post : List Nat) (c : Nat)
    (hpre : ∀ x ∈ pre, cond x = true) (hpost : ∀ x ∈ post.head?, cond x = false) :
    skipLoop cond (pre ++ post) c = c + pre.length := by
  induction pre generalizing c with
  | nil =>
    cases post with
    | nil => simp [skipLoop]
    | cons x t =>
      have hx : cond x = false := hpost x (by simp)
      simp [skipLoop, hx]
  | cons a pre ih =>
    have ha : cond a = true := hpre a (by simp)
    have hpre2 : ∀ x ∈ pre, cond x = true := fun x hx => hpre x (by simp [hx])
    simp [skipLoop, ha, ih (c + 1) hpre2]
    omega

theorem tryParseLoop_append (str l : List Nat) (c : Nat) :
    tryParseLoop str (str ++ l) c = some (c + str.length) := by
  induction str generalizing c with
  | nil => simp [tryParseLoop]
  | cons s str ih =>
    simp [tryParseLoop, ih (c + 1)]
    omega

theorem readLoop_append (endChar : Nat) (name post : List Nat) (c : Nat) (out : List Nat)
    (hname : ∀ x ∈ name, x ≠ 10 ∧ x ≠ 13 ∧ x ≠ endChar)
    (hpost : ∀ x ∈ post.head?, x = 10 ∨ x = 13 ∨ x = endChar) :
    readLoop endChar (name ++ post) c out = (c + name.length, out ++ name) := by
  induction name generalizing c out with
  | nil =>
    cases post with
    | nil => simp [readLoop]
    | cons x t =>
      have hx := hpost x (by simp)
      rcases hx with hx | hx | hx <;> simp [readLoop, hx]
  | cons a name ih =>
    have ha := hname a (by simp)
    have hname2 : ∀ x ∈ name, x ≠ 10 ∧ x ≠ 13 ∧ x ≠ endChar :=
      fun x hx => hname x (by simp [hx])
    simp [readLoop, ha.1, ha.2.1, ha.2.2, ih (c + 1) (out ++ [a]) hname2]
    omega

theorem drop_add_of_drop_eq (d : List Nat) (c : Nat) (pre post : List Nat)
    (h : d.drop c = pre ++ post) : d.drop (c + pre.length) = post := by
  have h2 : d.drop (c + pre.length) = (d.drop c).drop pre.length := by
    rw [List.drop_drop]
  rw [h2, h]
  simp

/-! ## Single steps of the scanner at a cursor whose remaining bytes are known -/

theorem skipAllWhitespace_at (d : List Nat) (c : Nat) (pre post : List Nat)
    (h : d.drop c = pre ++ post) (hpre : ∀ x ∈ pre, isspace x = true)
    (hpost : ∀ x ∈ post.head?, isspace x = false) :
    Parser.skipAllWhitespace ⟨d, c⟩ = ⟨d, c + pre.length⟩ := by
  simp [Parser.skipAllWhitespace, Parser.rest, h, skipLoop_append isspace pre post c hpre hpost]

theorem skipNonlinebreakWhitespace_at (d : List Nat) (c : Nat) (pre post : List Nat)
    (h : d.drop c = pre ++ post)
    (hpre : ∀ x ∈ pre, isNonlinebreakSpace x = true)
    (hpost : ∀ x ∈ post.head?, isNonlinebreakSpace x = false) :
    Parser.skipNonlinebreakWhitespace ⟨d, c⟩ = ⟨d, c + pre.length⟩ := by
  simp only [Parser.skipNonlinebreakWhitespace, Parser.rest, h]
  rw [skipLoop_append isNonlinebreakSpace pre post c hpre hpost]

theorem skipUntilNextLine_at (d : List Nat) (c : Nat) (pre post : List Nat)
    (h : d.drop c = pre ++ post)
    (hpre : ∀ x ∈ pre, notLinebreak x = true)
    (hpost : ∀ x ∈ post.head?, notLinebreak x = false) :
    Parser.skipUntilNextLine ⟨d, c⟩ = ⟨d, c + pre.length⟩ := by
  simp only [Parser.skipUntilNextLine, Parser.rest, h]
  rw [skipLoop_append notLinebreak pre post c hpre hpost]

theorem tryParse_at (d : List Nat) (c : Nat) (str post : List Nat)
    (h : d.drop c = str ++ post) :
    Parser.tryParse ⟨d, c⟩ str = (true, ⟨d, c + str.length⟩) := by
  simp [Parser.tryParse, Parser.rest, h, tryParseLoop_append]

theorem tryParse_nil_rest (d : List Nat) (c s : Nat) (str : List Nat)
    (h : d.drop c = []) :
    Parser.tryParse ⟨d, c⟩ (s :: str) = (false, ⟨d, c⟩) := by
  simp [Parser.tryParse, Parser.rest, h, tryParseLoop]

theorem tryParse_head_ne (d : List Nat) (c s x : Nat) (str t : List Nat)
    (h : d.drop c = x :: t) (hx : x ≠ s) :
    Parser.tryParse ⟨d, c⟩ (s :: str) = (false, ⟨d, c⟩) := by
  simp [Parser.tryParse, Parser.rest, h, tryParseLoop, hx]

theorem tryReadImportFileName_at (pastEnd : Nat) (d : List Nat) (c : Nat)
    (out : List Nat) (endChar : Nat) (name post : List Nat)
    (h : d.drop c = name ++ post)
    (hname : ∀ x ∈ name, x ≠ 10 ∧ x ≠ 13 ∧ x ≠ endChar)
    (hpost : ∀ x ∈ post.head?, x = 10 ∨ x = 13 ∨ x = endChar) :
    Parser.tryReadImportFileName pastEnd ⟨d, c⟩ out endChar =
      (post.headD pastEnd == endChar, ⟨d, c + name.length⟩, out ++ name) := by
  simp only [Parser.tryReadImportFileName, Parser.rest, h, Parser.deref,
    readLoop_append endChar name post c out hname hpost]
  rw [drop_add_of_drop_eq d c name post h]

/-- The common start of a directive: after the whitespace `ws`, `#`, the blanks `h1`,
`include` and the blanks `h2`, the scanner stands at `tail`. -/
theorem directive_head (d : List Nat) (c : Nat) (ws h1 h2 tail : List Nat)
    (h : d.drop c = ws ++ (strHash ++ (h1 ++ (strInclude ++ (h2 ++ tail)))))
    (hws : ∀ x ∈ ws, isspace x = true)
    (hh1 : ∀ x ∈ h1, isNonlinebreakSpace x = true)
    (hh2 : ∀ x ∈ h2, isNonlinebreakSpace x = true)
    (htail : ∀ x ∈ tail.head?, isNonlinebreakSpace x = false) :
    ((Parser.skipAllWhitespace ⟨d, c⟩).tryParse strHash) =
        (true, ⟨d, c + ws.length + 1⟩) ∧
    ((Parser.skipNonlinebreakWhitespace ⟨d, c + ws.length + 1⟩).tryParse strInclude) =
        (true, ⟨d, c + ws.length + 1 + h1.length + 7⟩) ∧
    Parser.skipNonlinebreakWhitespace ⟨d, c + ws.length + 1 + h1.length + 7⟩ =
        ⟨d, c + ws.length + 1 + h1.length + 7 + h2.length⟩ ∧
    d.drop (c + ws.length + 1 + h1.length + 7 + h2.length) = tail := by
  have e1 := drop_add_of_drop_eq d c ws _ h
  have e2 := drop_add_of_drop_eq d _ strHash _ e1
  have e3 := drop_add_of_drop_eq d _ h1 _ e2
  have e4 := drop_add_of_drop_eq d _ strInclude _ e3
  have e5 := drop_add_of_drop_eq d _ h2 _ e4
  have l1 : strHash.length = 1 := rfl
  have l7 : strInclude.length = 7 := rfl
  rw [l1] at e2 e3 e4 e5
  rw [l7] at e4 e5
  refine ⟨?_, ?_, ?_, e5⟩
  · rw [skipAllWhitespace_at d c ws _ h hws (by simp [strHash, isspace])]
    exact tryParse_at d _ strHash _ e1
  · rw [skipNonlinebreakWhitespace_at d _ h1 _ e2 hh1
      (by simp [strInclude, isNonlinebreakSpace, isspace])]
    exact tryParse_at d _ strInclude _ e3
  · exact skipNonlinebreakWhitespace_at d _ h2 _ e4 hh2 htail


/-- A well-formed quoted directive is read whole: the name is appended to `out` and
the cursor stops behind the closing quote. -/
theorem tryGetImport_quotes_at (pastEnd : Nat) (d : List Nat) (c : Nat)
    (ws h1 h2 name rest out : List Nat)
    (h : d.drop c = ws ++ (strHash ++ (h1 ++ (strInclude ++ (h2 ++
      (chQuote :: (name ++ (chQuote :: rest))))))))
    (hws : ∀ x ∈ ws, isspace x = true)
    (hh1 : ∀ x ∈ h1, isNonlinebreakSpace x = true)
    (hh2 : ∀ x ∈ h2, isNonlinebreakSpace x = true)
    (hname : ∀ x ∈ name, x ≠ 10 ∧ x ≠ 13 ∧ x ≠ chQuote) :
    Parser.tryGetImport pastEnd ⟨d, c⟩ out =
      (ImportType.quotes,
        ⟨d, c + ws.length + 1 + h1.length + 7 + h2.length + 1 + name.length + 1⟩,
        out ++ name) := by
  obtain ⟨s1, s2, s3, e⟩ := directive_head d c ws h1 h2 _ h hws hh1 hh2
    (by simp [isNonlinebreakSpace, isspace, chQuote])
  have e1 := drop_add_of_drop_eq d _ [chQuote] (name ++ (chQuote :: rest)) e
  have e2 := drop_add_of_drop_eq d _ name (chQuote :: rest) e1
  have t1 := tryParse_at d _ [chQuote] _ e
  have t2 := tryReadImportFileName_at pastEnd d _ out chQuote name (chQuote :: rest) e1
    hname (by simp)
  have t3 := tryParse_at d _ [chQuote] rest e2
  simp only [List.length_singleton] at e1 e2 t1 t2 t3
  simp only [List.headD_cons, beq_self_eq_true] at t2
  simp [Parser.tryGetImport, s1, s2, s3, t1, t2, t3]


/-- A well-formed angle directive is read whole: the name is appended to `out` and
the cursor stops behind the `>`. -/
theorem tryGetImport_angles_at (pastEnd : Nat) (d : List Nat) (c : Nat)
    (ws h1 h2 name rest out : List Nat)
    (h : d.drop c = ws ++ (strHash ++ (h1 ++ (strInclude ++ (h2 ++
      (chLess :: (name ++ (chGreater :: rest))))))))
    (hws : ∀ x ∈ ws, isspace x = true)
    (hh1 : ∀ x ∈ h1, isNonlinebreakSpace x = true)
    (hh2 : ∀ x ∈ h2, isNonlinebreakSpace x = true)
    (hname : ∀ x ∈ name, x ≠ 10 ∧ x ≠ 13 ∧ x ≠ chGreater) :
    Parser.tryGetImport pastEnd ⟨d, c⟩ out =
      (ImportType.angles,
        ⟨d, c + ws.length + 1 + h1.length + 7 + h2.length + 1 + name.length + 1⟩,
        out ++ name) := by
  obtain ⟨s1, s2, s3, e⟩ := directive_head d c ws h1 h2 _ h hws hh1 hh2
    (by simp [isNonlinebreakSpace, isspace, chLess])
  have e1 := drop_add_of_drop_eq d _ [chLess] (name ++ (chGreater :: rest)) e
  have e2 := drop_add_of_drop_eq d _ name (chGreater :: rest) e1
  have t0 := tryParse_head_ne d _ chQuote chLess [] _ e (by decide)
  have t1 := tryParse_at d _ [chLess] _ e
  have t2 := tryReadImportFileName_at pastEnd d _ out chGreater name (chGreater :: rest) e1
    hname (by simp)
  have t3 := tryParse_at d _ [chGreater] rest e2
  simp only [List.length_singleton] at e1 e2 t1 t2 t3
  simp only [List.headD_cons, beq_self_eq_true] at t2
  simp [Parser.tryGetImport, s1, s2, s3, t0, t1, t2, t3]

theorem skipUntilNextLine_stay (d : List Nat) (c : Nat)
    (h : ∀ x ∈ (d.drop c).head?, x = 10 ∨ x = 13) :
    Parser.skipUntilNextLine ⟨d, c⟩ = ⟨d, c⟩ := by
  have := skipUntilNextLine_at d c [] (d.drop c) (by simp) (by simp)
    (by
      intro x hx
      rcases h x hx with hx | hx <;> simp [notLinebreak, hx])
  simpa using this

/-- An opened name that meets a line break or the end before `endChar`: the read stops
there, and whatever it reports, the closing `tryParse` cannot succeed. -/
theorem unterminated_tail (pastEnd : Nat) (d : List Nat) (c : Nat)
    (out : List Nat) (endChar : Nat) (body post : List Nat)
    (h : d.drop c = body ++ post)
    (hbody : ∀ x ∈ body, x ≠ 10 ∧ x ≠ 13 ∧ x ≠ endChar)
    (hpost : ∀ x ∈ post.head?, x = 10 ∨ x = 13)
    (hend : endChar ≠ 10 ∧ endChar ≠ 13) :
    (Parser.tryReadImportFileName pastEnd ⟨d, c⟩ out endChar).2 =
        (⟨d, c + body.length⟩, out ++ body) ∧
    ((Parser.tryReadImportFileName pastEnd ⟨d, c⟩ out endChar).1 = false ∨
      Parser.tryParse ⟨d, c + body.length⟩ [endChar] = (false, ⟨d, c + body.length⟩)) ∧
    Parser.skipUntilNextLine ⟨d, c + body.length⟩ = ⟨d, c + body.length⟩ := by
  have e1 := drop_add_of_drop_eq d c body post h
  have t2 := tryReadImportFileName_at pastEnd d c out endChar body post h hbody
    (by
      intro x hx
      rcases hpost x hx with hx | hx
      · exact Or.inl hx
      · exact Or.inr (Or.inl hx))
  have st := skipUntilNextLine_stay d (c + body.length) (by rw [e1]; exact hpost)
  refine ⟨by rw [t2], ?_, st⟩
  rw [t2]
  cases post with
  | nil => exact Or.inr (tryParse_nil_rest d (c + body.length) endChar [] e1)
  | cons x t =>
    have hx := hpost x (by simp)
    left
    rcases hx with hx | hx
    · simp [hx, Ne.symm hend.1]
    · simp [hx, Ne.symm hend.2]

/-- An unterminated directive fails, with the cursor left where the name stopped. -/
theorem tryGetImport_unterminated_at (pastEnd op endChar : Nat) (d : List Nat) (c : Nat)
    (ws h1 h2 body post out : List Nat)
    (hop : (op = chQuote ∧ endChar = chQuote) ∨ (op = chLess ∧ endChar = chGreater))
    (h : d.drop c = ws ++ (strHash ++ (h1 ++ (strInclude ++ (h2 ++
      (op :: (body ++ post)))))))
    (hws : ∀ x ∈ ws, isspace x = true)
    (hh1 : ∀ x ∈ h1, isNonlinebreakSpace x = true)
    (hh2 : ∀ x ∈ h2, isNonlinebreakSpace x = true)
    (hbody : ∀ x ∈ body, x ≠ 10 ∧ x ≠ 13 ∧ x ≠ endChar)
    (hpost : ∀ x ∈ post.head?, x = 10 ∨ x = 13) :
    Parser.tryGetImport pastEnd ⟨d, c⟩ out =
      (ImportType.fail,
        ⟨d, c + ws.length + 1 + h1.length + 7 + h2.length + 1 + body.length⟩,
        out ++ body) := by
  have hopsp : isNonlinebreakSpace op = false := by
    rcases hop with ⟨h1, _⟩ | ⟨h1, _⟩ <;> simp [h1, isNonlinebreakSpace, isspace, chQuote, chLess]
  obtain ⟨s1, s2, s3, e⟩ := directive_head d c ws h1 h2 _ h hws hh1 hh2
    (by simpa using hopsp)
  have e1 := drop_add_of_drop_eq d _ [op] (body ++ post) e
  have hend : endChar ≠ 10 ∧ endChar ≠ 13 := by
    rcases hop with ⟨_, h2⟩ | ⟨_, h2⟩ <;> simp [h2, chQuote, chGreater]
  obtain ⟨u1, u2, u3⟩ := unterminated_tail pastEnd d _ out endChar body post e1 hbody hpost hend
  have t1 := tryParse_at d _ [op] _ e
  simp only [List.length_singleton] at e1 u1 u2 u3 t1
  generalize c + ws.length + 1 + h1.length + 7 + h2.length = c5 at s3 e e1 u1 u2 u3 t1 ⊢
  rcases hr : Parser.tryReadImportFileName pastEnd ⟨d, c5 + 1⟩ out endChar with ⟨b, p1, o1⟩
  rw [hr] at u1 u2
  simp only [Prod.mk.injEq] at u1
  obtain ⟨hp1, ho1⟩ := u1
  subst hp1 ho1
  rcases hop with ⟨ho, he⟩ | ⟨ho, he⟩
  · subst ho he
    rcases u2 with u2 | u2
    · simp only at u2
      subst u2
      simp [Parser.tryGetImport, s1, s2, s3, t1, hr, u3]
    · cases b <;> simp [Parser.tryGetImport, s1, s2, s3, t1, hr, u2, u3]
  · subst ho he
    have t0 := tryParse_head_ne d c5 chQuote chLess [] _ e (by decide)
    rcases u2 with u2 | u2
    · simp only at u2
      subst u2
      simp [Parser.tryGetImport, s1, s2, s3, t0, t1, hr, u3]
    · cases b <;> simp [Parser.tryGetImport, s1, s2, s3, t0, t1, hr, u2, u3]

/-! ## The scanner: extraction of directives -/

/-- C1: on a buffer `ws # h1 include h2 "name" rest` (`ws` whitespace, `h1` and `h2`
whitespace without line breaks, `name` free of `"` and line breaks) `tryGetImport`
called at the start returns `quotes`, appends exactly `name` to `out` and leaves the
cursor right behind the closing quote. -/
theorem quoted_directive_extracted (pastEnd : Nat) (ws h1 h2 name rest out : List Nat)
    (hws : ∀ x ∈ ws, isspace x = true)
    (hh1 : ∀ x ∈ h1, isNonlinebreakSpace x = true)
    (hh2 : ∀ x ∈ h2, isNonlinebreakSpace x = true)
    (hname : ∀ x ∈ name, x ≠ chQuote ∧ x ≠ 10 ∧ x ≠ 13) :
    Parser.tryGetImport pastEnd
        ⟨ws ++ strHash ++ h1 ++ strInclude ++ h2 ++ [chQuote] ++ name ++ [chQuote] ++ rest, 0⟩
        out =
      (ImportType.quotes,
        ⟨ws ++ strHash ++ h1 ++ strInclude ++ h2 ++ [chQuote] ++ name ++ [chQuote] ++ rest,
          (ws ++ strHash ++ h1 ++ strInclude ++ h2 ++ [chQuote] ++ name ++ [chQuote]).length⟩,
        out ++ name) := by
  have key := tryGetImport_quotes_at pastEnd
    (ws ++ strHash ++ h1 ++ strInclude ++ h2 ++ [chQuote] ++ name ++ [chQuote] ++ rest) 0
    ws h1 h2 name rest out (by simp) hws hh1 hh2
    (fun x hx => ⟨(hname x hx).2.1, (hname x hx).2.2, (hname x hx).1⟩)
  rw [key]
  simp [strHash, strInclude]
  omega

theorem quoted_directive_extracted_witness :
    Parser.tryGetImport 0
        ⟨[10, 32] ++ strHash ++ [32] ++ strInclude ++ [9] ++ [chQuote] ++ [97, 46, 104] ++
          [chQuote] ++ [32, 120], 0⟩ [] =
      (ImportType.quotes,
        ⟨[10, 32] ++ strHash ++ [32] ++ strInclude ++ [9] ++ [chQuote] ++ [97, 46, 104] ++
          [chQuote] ++ [32, 120],
          ([10, 32] ++ strHash ++ [32] ++ strInclude ++ [9] ++ [chQuote] ++ [97, 46, 104] ++
            [chQuote]).length⟩,
        [] ++ [97, 46, 104]) :=
  quoted_directive_extracted 0 [10, 32] [32] [9] [97, 46, 104] [32, 120] []
    (by decide) (by decide) (by decide) (by decide)

/-- C2: on a buffer `ws # h1 include h2 <name> rest` (`name` free of `>` and line
breaks) `tryGetImport` returns `angles`, `out` receives exactly `name` and the cursor
rests right behind the `>`. -/
theorem angle_directive_extracted (pastEnd : Nat) (ws h1 h2 name rest out : List Nat)
    (hws : ∀ x ∈ ws, isspace x = true)
    (hh1 : ∀ x ∈ h1, isNonlinebreakSpace x = true)
    (hh2 : ∀ x ∈ h2, isNonlinebreakSpace x = true)
    (hname : ∀ x ∈ name, x ≠ chGreater ∧ x ≠ 10 ∧ x ≠ 13) :
    Parser.tryGetImport pastEnd
        ⟨ws ++ strHash ++ h1 ++ strInclude ++ h2 ++ [chLess] ++ name ++ [chGreater] ++ rest, 0⟩
        out =
      (ImportType.angles,
        ⟨ws ++ strHash ++ h1 ++ strInclude ++ h2 ++ [chLess] ++ name ++ [chGreater] ++ rest,
          (ws ++ strHash ++ h1 ++ strInclude ++ h2 ++ [chLess] ++ name ++ [chGreater]).length⟩,
        out ++ name) := by
  have key := tryGetImport_angles_at pastEnd
    (ws ++ strHash ++ h1 ++ strInclude ++ h2 ++ [chLess] ++ name ++ [chGreater] ++ rest) 0
    ws h1 h2 name rest out (by simp) hws hh1 hh2
    (fun x hx => ⟨(hname x hx).2.1, (hname x hx).2.2, (hname x hx).1⟩)
  rw [key]
  simp [strHash, strInclude]
  omega

theorem angle_directive_extracted_witness :
    Parser.tryGetImport 0
        ⟨[] ++ strHash ++ [] ++ strInclude ++ [32] ++ [chLess] ++ [97, 47, 98] ++
          [chGreater] ++ [10], 0⟩ [] =
      (ImportType.angles,
        ⟨[] ++ strHash ++ [] ++ strInclude ++ [32] ++ [chLess] ++ [97, 47, 98] ++
          [chGreater] ++ [10],
          ([] ++ strHash ++ [] ++ strInclude ++ [32] ++ [chLess] ++ [97, 47, 98] ++
            [chGreater]).length⟩,
        [] ++ [97, 47, 98]) :=
  angle_directive_extracted 0 [] [] [32] [97, 47, 98] [10] []
    (by decide) (by decide) (by decide) (by decide)

/-- C4: a directive opened with `"` (or `<`) whose name meets a line break or the end
of the buffer before the terminator makes `tryGetImport` return `fail`, for every
value `pastEnd` that the read at the end position may yield. -/
theorem unterminated_directive_fails (pastEnd op endChar : Nat)
    (ws h1 h2 body post out : List Nat)
    (hop : (op = chQuote ∧ endChar = chQuote) ∨ (op = chLess ∧ endChar = chGreater))
    (hws : ∀ x ∈ ws, isspace x = true)
    (hh1 : ∀ x ∈ h1, isNonlinebreakSpace x = true)
    (hh2 : ∀ x ∈ h2, isNonlinebreakSpace x = true)
    (hbody : ∀ x ∈ body, x ≠ endChar ∧ x ≠ 10 ∧ x ≠ 13)
    (hpost : ∀ x ∈ post.head?, x = 10 ∨ x = 13) :
    (Parser.tryGetImport pastEnd
        ⟨ws ++ strHash ++ h1 ++ strInclude ++ h2 ++ [op] ++ body ++ post, 0⟩ out).1 =
      ImportType.fail := by
  have key := tryGetImport_unterminated_at pastEnd op endChar
    (ws ++ strHash ++ h1 ++ strInclude ++ h2 ++ [op] ++ body ++ post) 0
    ws h1 h2 body post out hop (by simp) hws hh1 hh2
    (fun x hx => ⟨(hbody x hx).2.1, (hbody x hx).2.2, (hbody x hx).1⟩) hpost
  rw [key]

theorem unterminated_directive_fails_witness :
    (Parser.tryGetImport 34
        ⟨[] ++ strHash ++ [] ++ strInclude ++ [32] ++ [chQuote] ++ [117, 110, 116] ++ [], 0⟩
        []).1 = ImportType.fail :=
  unterminated_directive_fails 34 chQuote chQuote [] [] [32] [117, 110, 116] [] []
    (by decide) (by decide) (by decide) (by decide) (by decide) (by decide)


/-! ## Progress of the scanner -/

theorem skipLoop_bounds (cond : Nat → Bool) (l : List Nat) (c : Nat) :
    c ≤ skipLoop cond l c ∧ skipLoop cond l c ≤ c + l.length := by
  induction l generalizing c with
  | nil => simp [skipLoop]
  | cons x t ih =>
    simp only [skipLoop]
    split
    · have := ih (c + 1)
      simp only [List.length_cons]
      omega
    · simp

theorem tryParseLoop_some (str l : List Nat) (c t : Nat)
    (h : tryParseLoop str l c = some t) : t = c + str.length ∧ str.length ≤ l.length := by
  induction str generalizing l c with
  | nil =>
    simp [tryParseLoop] at h
    simp [h]
  | cons s str ih =>
    cases l with
    | nil => simp [tryParseLoop] at h
    | cons x l =>
      simp only [tryParseLoop] at h
      split at h
      · simp at h
      · have := ih l (c + 1) h
        simp only [List.length_cons]
        omega

theorem readLoop_bounds (endChar : Nat) (l : List Nat) (c : Nat) (out : List Nat) :
    c ≤ (readLoop endChar l c out).1 ∧ (readLoop endChar l c out).1 ≤ c + l.length := by
  induction l generalizing c out with
  | nil => simp [readLoop]
  | cons x t ih =>
    simp only [readLoop]
    split
    · have := ih (c + 1) (out ++ [x])
      simp only [List.length_cons]
      omega
    · simp

theorem Parser.Reaches.refl (p : Parser) : p.Reaches p :=
  ⟨rfl, Nat.le_refl _, fun h => h⟩

theorem Parser.Reaches.trans {p q r : Parser} (h1 : p.Reaches q) (h2 : q.Reaches r) :
    p.Reaches r := by
  obtain ⟨a1, a2, a3⟩ := h1
  obtain ⟨b1, b2, b3⟩ := h2
  refine ⟨by rw [b1, a1], Nat.le_trans a2 b2, fun h => ?_⟩
  have := a3 h
  rw [a1] at b3
  exact b3 this

theorem rest_length (p : Parser) : p.rest.length = p.data.length - p.cursor := by
  simp [Parser.rest]

theorem reaches_of_cursor (p : Parser) (c : Nat) (h1 : p.cursor ≤ c)
    (h2 : c ≤ p.cursor + p.rest.length) : p.Reaches ⟨p.data, c⟩ := by
  refine ⟨rfl, h1, fun h => ?_⟩
  rw [rest_length] at h2
  simp only
  omega

theorem reaches_skipAllWhitespace (p : Parser) : p.Reaches p.skipAllWhitespace :=
  reaches_of_cursor p _ (skipLoop_bounds _ _ _).1 (skipLoop_bounds _ _ _).2

theorem reaches_skipNonlinebreakWhitespace (p : Parser) :
    p.Reaches p.skipNonlinebreakWhitespace :=
  reaches_of_cursor p _ (skipLoop_bounds _ _ _).1 (skipLoop_bounds _ _ _).2

theorem reaches_skipUntilNextLine (p : Parser) : p.Reaches p.skipUntilNextLine :=
  reaches_of_cursor p _ (skipLoop_bounds _ _ _).1 (skipLoop_bounds _ _ _).2

theorem reaches_tryParse (p : Parser) (str : List Nat) : p.Reaches (p.tryParse str).2 := by
  unfold Parser.tryParse
  cases h : tryParseLoop str p.rest p.cursor with
  | none => exact Parser.Reaches.refl p
  | some t =>
    have := tryParseLoop_some str p.rest p.cursor t h
    exact reaches_of_cursor p t (by omega) (by omega)

theorem reaches_tryReadImportFileName (pastEnd : Nat) (p : Parser) (out : List Nat)
    (endChar : Nat) : p.Reaches (p.tryReadImportFileName pastEnd out endChar).2.1 :=
  reaches_of_cursor p _ (readLoop_bounds _ _ _ _).1 (readLoop_bounds _ _ _ _).2


/-- Once `#` is read, every way through `tryGetImport` ends at or after that place. -/
theorem tryGetImport_reaches_after_hash (pastEnd : Nat) (p : Parser) (out : List Nat)
    (h : (p.skipAllWhitespace.tryParse strHash).1 = true) :
    (p.skipAllWhitespace.tryParse strHash).2.Reaches (p.tryGetImport pastEnd out).2.1 := by
  simp only [Parser.tryGetImport, h, Bool.not_true, Bool.false_eq_true, if_false]
  split_ifs <;>
    repeat (first
      | with_reducible exact Parser.Reaches.refl _
      | with_reducible refine Parser.Reaches.trans ?_ (reaches_skipUntilNextLine _)
      | with_reducible refine Parser.Reaches.trans ?_ (reaches_skipNonlinebreakWhitespace _)
      | with_reducible refine Parser.Reaches.trans ?_ (reaches_tryParse _ _)
      | with_reducible refine Parser.Reaches.trans ?_ (reaches_tryReadImportFileName _ _ _ _))

theorem tryGetImport_no_hash (pastEnd : Nat) (p : Parser) (out : List Nat)
    (h : (p.skipAllWhitespace.tryParse strHash).1 = false) :
    p.tryGetImport pastEnd out =
      (ImportType.fail, (p.skipAllWhitespace.tryParse strHash).2.skipUntilNextLine, out) := by
  simp [Parser.tryGetImport, h]

theorem tryParse_false (p : Parser) (str : List Nat) (h : (p.tryParse str).1 = false) :
    (p.tryParse str).2 = p := by
  unfold Parser.tryParse at h ⊢
  cases h2 : tryParseLoop str p.rest p.cursor with
  | none => rfl
  | some t => simp [h2] at h

theorem tryParse_true (p : Parser) (str : List Nat) (h : (p.tryParse str).1 = true) :
    (p.tryParse str).2 = ⟨p.data, p.cursor + str.length⟩ := by
  unfold Parser.tryParse at h ⊢
  cases h2 : tryParseLoop str p.rest p.cursor with
  | none => simp [h2] at h
  | some t =>
    have := tryParseLoop_some str p.rest p.cursor t h2
    simp [this.1]

/-- A call of `tryGetImport` ends at or after the place where it starts. -/
theorem tryGetImport_reaches (pastEnd : Nat) (p : Parser) (out : List Nat) :
    p.Reaches (p.tryGetImport pastEnd out).2.1 := by
  cases h : (p.skipAllWhitespace.tryParse strHash).1 with
  | true =>
    exact ((reaches_skipAllWhitespace p).trans (reaches_tryParse _ strHash)).trans
      (tryGetImport_reaches_after_hash pastEnd p out h)
  | false =>
    rw [tryGetImport_no_hash pastEnd p out h]
    exact ((reaches_skipAllWhitespace p).trans (reaches_tryParse _ strHash)).trans
      (reaches_skipUntilNextLine _)

theorem skipLoop_stuck (cond : Nat → Bool) (x : Nat) (t : List Nat) (c : Nat)
    (h : skipLoop cond (x :: t) c = c) : cond x = false := by
  cases hc : cond x with
  | false => rfl
  | true =>
    simp only [skipLoop, hc, if_true] at h
    have := (skipLoop_bounds cond t (c + 1)).1
    omega

theorem skipLoop_moves (cond : Nat → Bool) (x : Nat) (t : List Nat) (c : Nat)
    (h : cond x = true) : c < skipLoop cond (x :: t) c := by
  simp only [skipLoop, h, if_true]
  have := (skipLoop_bounds cond t (c + 1)).1
  omega

theorem notLinebreak_of_not_isspace (x : Nat) (h : isspace x = false) :
    notLinebreak x = true := by
  simp only [isspace, notLinebreak] at *
  by_cases h10 : x = 10
  · subst h10; simp at h
  · by_cases h13 : x = 13
    · subst h13; simp at h
    · simp [h10, h13]

/-- A call of `tryGetImport` at a cursor before the end moves the cursor forward. -/
theorem tryGetImport_progress (pastEnd : Nat) (p : Parser) (out : List Nat)
    (h : p.cursor < p.data.length) :
    p.cursor < (p.tryGetImport pastEnd out).2.1.cursor := by
  have r1 := reaches_skipAllWhitespace p
  by_cases hmv : p.cursor < p.skipAllWhitespace.cursor
  · have := tryGetImport_reaches pastEnd p out
    have r2 := reaches_tryParse p.skipAllWhitespace strHash
    cases hh : (p.skipAllWhitespace.tryParse strHash).1 with
    | true =>
      have r3 := tryGetImport_reaches_after_hash pastEnd p out hh
      have := r2.2.1
      have := r3.2.1
      omega
    | false =>
      rw [tryGetImport_no_hash pastEnd p out hh]
      have := r2.2.1
      have := (reaches_skipUntilNextLine (p.skipAllWhitespace.tryParse strHash).2).2.1
      simp only
      omega
  · have hc : p.skipAllWhitespace.cursor = p.cursor := by
      have := r1.2.1
      omega
    have hp : p.skipAllWhitespace = p := by
      cases p
      simp only [Parser.skipAllWhitespace] at hc ⊢
      simp only [hc]
    obtain ⟨x, t, hxt⟩ : ∃ x t, p.rest = x :: t := by
      cases hr : p.rest with
      | nil =>
        have := rest_length p
        rw [hr] at this
        simp at this
        omega
      | cons x t => exact ⟨x, t, rfl⟩
    have hx : isspace x = false := by
      apply skipLoop_stuck isspace x t p.cursor
      rw [← hxt]
      exact hc
    cases hh : (p.skipAllWhitespace.tryParse strHash).1 with
    | true =>
      have r3 := tryGetImport_reaches_after_hash pastEnd p out hh
      rw [tryParse_true _ strHash hh, hp] at r3
      have := r3.2.1
      simp only [strHash, List.length_singleton] at this
      omega
    | false =>
      rw [tryGetImport_no_hash pastEnd p out hh, tryParse_false _ strHash hh, hp]
      simp only [Parser.skipUntilNextLine, hxt]
      exact skipLoop_moves notLinebreak x t p.cursor (notLinebreak_of_not_isspace x hx)


/-- With one unit of fuel for every byte left, the scan loop leaves through `atEnd`
after at most that many calls. -/
theorem scanLoop_terminates (pastEnd : Nat) (fuel : Nat) (p : Parser)
    (hv : p.cursor ≤ p.data.length) (hf : p.data.length - p.cursor ≤ fuel) :
    (scanLoop pastEnd fuel p).2.atEnd = true ∧
      (scanLoop pastEnd fuel p).2.data = p.data ∧
      (scanLoop pastEnd fuel p).1.length ≤ p.data.length - p.cursor := by
  induction fuel generalizing p with
  | zero =>
    have : p.cursor = p.data.length := by omega
    simp [scanLoop, Parser.atEnd, this]
  | succ fuel ih =>
    by_cases hend : p.atEnd = true
    · simp [scanLoop, hend]
    · have hlt : p.cursor < p.data.length := by
        simp only [Parser.atEnd, beq_iff_eq] at hend
        omega
      have hr := tryGetImport_reaches pastEnd p []
      have hp := tryGetImport_progress pastEnd p [] hlt
      obtain ⟨hd, _, hle⟩ := hr
      have hle := hle hv
      have := ih (p.tryGetImport pastEnd []).2.1 (by rw [hd]; exact hle) (by rw [hd]; omega)
      obtain ⟨i1, i2, i3⟩ := this
      simp only [scanLoop, hend, Bool.false_eq_true, if_false, List.length_cons]
      refine ⟨i1, by rw [i2, hd], ?_⟩
      rw [hd] at i3
      omega

/-! ## The scanner: drainability -/

/-- C5: at a cursor that is not at the end of the buffer one call of `tryGetImport`
moves the cursor strictly forward, never past the end, on the same buffer; and the
loop `while (!atEnd()) tryGetImport(...)` over a buffer `data`, given at least
`data.length` iterations, leaves through `atEnd` after at most `data.length` calls. -/
theorem scanner_drains (pastEnd : Nat) (p : Parser) (out data : List Nat) (fuel : Nat)
    (h : p.cursor < p.data.length) (hfuel : data.length ≤ fuel) :
    ((p.tryGetImport pastEnd out).2.1.data = p.data ∧
      p.cursor < (p.tryGetImport pastEnd out).2.1.cursor ∧
      (p.tryGetImport pastEnd out).2.1.cursor ≤ p.data.length) ∧
    ((scanLoop pastEnd fuel ⟨data, 0⟩).2.atEnd = true ∧
      (scanLoop pastEnd fuel ⟨data, 0⟩).1.length ≤ data.length) := by
  have hr := tryGetImport_reaches pastEnd p out
  have ht := scanLoop_terminates pastEnd fuel ⟨data, 0⟩ (Nat.zero_le _) (by simpa using hfuel)
  exact ⟨⟨hr.1, tryGetImport_progress pastEnd p out h, hr.2.2 (Nat.le_of_lt h)⟩,
    ht.1, by simpa using ht.2.2⟩

theorem scanner_drains_witness :
    ((Parser.tryGetImport 0 ⟨[120, 10, 121], 1⟩ []).2.1.data = [120, 10, 121] ∧
      1 < (Parser.tryGetImport 0 ⟨[120, 10, 121], 1⟩ []).2.1.cursor ∧
      (Parser.tryGetImport 0 ⟨[120, 10, 121], 1⟩ []).2.1.cursor ≤ 3) ∧
    ((scanLoop 0 3 ⟨[120, 10, 121], 0⟩).2.atEnd = true ∧
      (scanLoop 0 3 ⟨[120, 10, 121], 0⟩).1.length ≤ 3) :=
  scanner_drains 0 ⟨[120, 10, 121], 1⟩ [] [120, 10, 121] 3 (by decide) (by decide)


/-! ## The scanner reads nothing before the cursor -/

theorem skipLoop_shift (cond : Nat → Bool) (l : List Nat) (c k : Nat) :
    skipLoop cond l (c + k) = c + skipLoop cond l k := by
  induction l generalizing k with
  | nil => simp [skipLoop]
  | cons x t ih =>
    simp only [skipLoop]
    split
    · rw [Nat.add_assoc, ih (k + 1)]
    · rfl

theorem tryParseLoop_shift (str l : List Nat) (c k : Nat) :
    tryParseLoop str l (c + k) = (tryParseLoop str l k).map (fun t => c + t) := by
  induction str generalizing l k with
  | nil => simp [tryParseLoop]
  | cons s str ih =>
    cases l with
    | nil => simp [tryParseLoop]
    | cons x l =>
      simp only [tryParseLoop]
      split
      · rfl
      · rw [Nat.add_assoc, ih l (k + 1)]

theorem readLoop_shift (endChar : Nat) (l : List Nat) (c k : Nat) (out : List Nat) :
    readLoop endChar l (c + k) out =
      (c + (readLoop endChar l k out).1, (readLoop endChar l k out).2) := by
  induction l generalizing k out with
  | nil => simp [readLoop]
  | cons x t ih =>
    simp only [readLoop]
    split
    · rw [Nat.add_assoc, ih (k + 1)]
    · rfl

theorem embed_rest (d : List Nat) (c : Nat) (q : Parser) (hq : q.data = d.drop c) :
    (q.embed d c).rest = q.rest := by
  simp only [Parser.embed, Parser.rest, hq, List.drop_drop]

theorem embed_skipAllWhitespace (d : List Nat) (c : Nat) (q : Parser)
    (hq : q.data = d.drop c) :
    (q.embed d c).skipAllWhitespace = q.skipAllWhitespace.embed d c := by
  simp only [Parser.skipAllWhitespace, embed_rest d c q hq]
  simp only [Parser.embed, skipLoop_shift]

theorem embed_skipNonlinebreakWhitespace (d : List Nat) (c : Nat) (q : Parser)
    (hq : q.data = d.drop c) :
    (q.embed d c).skipNonlinebreakWhitespace = q.skipNonlinebreakWhitespace.embed d c := by
  simp only [Parser.skipNonlinebreakWhitespace, embed_rest d c q hq]
  simp only [Parser.embed, skipLoop_shift]

theorem embed_skipUntilNextLine (d : List Nat) (c : Nat) (q : Parser)
    (hq : q.data = d.drop c) :
    (q.embed d c).skipUntilNextLine = q.skipUntilNextLine.embed d c := by
  simp only [Parser.skipUntilNextLine, embed_rest d c q hq]
  simp only [Parser.embed, skipLoop_shift]

theorem embed_tryParse (d : List Nat) (c : Nat) (q : Parser) (str : List Nat)
    (hq : q.data = d.drop c) :
    (q.embed d c).tryParse str = ((q.tryParse str).1, (q.tryParse str).2.embed d c) := by
  simp only [Parser.tryParse, embed_rest d c q hq]
  simp only [Parser.embed, tryParseLoop_shift]
  cases tryParseLoop str q.rest q.cursor <;> rfl

theorem embed_tryReadImportFileName (pastEnd : Nat) (d : List Nat) (c : Nat) (q : Parser)
    (out : List Nat) (endChar : Nat) (hq : q.data = d.drop c) :
    (q.embed d c).tryReadImportFileName pastEnd out endChar =
      ((q.tryReadImportFileName pastEnd out endChar).1,
        (q.tryReadImportFileName pastEnd out endChar).2.1.embed d c,
        (q.tryReadImportFileName pastEnd out endChar).2.2) := by
  simp only [Parser.tryReadImportFileName, embed_rest d c q hq]
  simp only [Parser.embed, readLoop_shift, Parser.deref, Parser.rest, hq, List.drop_drop]

theorem skipAllWhitespace_data (p : Parser) : p.skipAllWhitespace.data = p.data := rfl

theorem skipNonlinebreakWhitespace_data (p : Parser) :
    p.skipNonlinebreakWhitespace.data = p.data := rfl

theorem skipUntilNextLine_data (p : Parser) : p.skipUntilNextLine.data = p.data := rfl

theorem tryParse_data (p : Parser) (str : List Nat) : (p.tryParse str).2.data = p.data :=
  (reaches_tryParse p str).1

theorem tryReadImportFileName_data (pastEnd : Nat) (p : Parser) (out : List Nat)
    (endChar : Nat) : (p.tryReadImportFileName pastEnd out endChar).2.1.data = p.data := rfl

/-- The scanner on the buffer `d` at offset `c + q.cursor` does what it does on the
bytes of `d` from `c` on alone. -/
theorem embed_tryGetImport (pastEnd : Nat) (d : List Nat) (c : Nat) (q : Parser)
    (out : List Nat) (hq : q.data = d.drop c) :
    (q.embed d c).tryGetImport pastEnd out =
      ((q.tryGetImport pastEnd out).1, (q.tryGetImport pastEnd out).2.1.embed d c,
        (q.tryGetImport pastEnd out).2.2) := by
  obtain ⟨q1, e1⟩ : ∃ q1, q.skipAllWhitespace = q1 := ⟨_, rfl⟩
  have d1 : q1.data = d.drop c := by rw [← e1]; exact hq
  have a1 : (q.embed d c).skipAllWhitespace = q1.embed d c := by
    rw [embed_skipAllWhitespace d c q hq, e1]
  obtain ⟨r2, e2⟩ : ∃ r2, q1.tryParse strHash = r2 := ⟨_, rfl⟩
  have d2 : r2.2.data = d.drop c := by rw [← e2, tryParse_data]; exact d1
  have a2 : (q1.embed d c).tryParse strHash = (r2.1, r2.2.embed d c) := by
    rw [embed_tryParse d c q1 _ d1, e2]
  have a2f : (r2.2.embed d c).skipUntilNextLine = r2.2.skipUntilNextLine.embed d c :=
    embed_skipUntilNextLine d c _ d2
  obtain ⟨q3, e3⟩ : ∃ q3, r2.2.skipNonlinebreakWhitespace = q3 := ⟨_, rfl⟩
  have d3 : q3.data = d.drop c := by rw [← e3]; exact d2
  have a3 : (r2.2.embed d c).skipNonlinebreakWhitespace = q3.embed d c := by
    rw [embed_skipNonlinebreakWhitespace d c _ d2, e3]
  obtain ⟨r4, e4⟩ : ∃ r4, q3.tryParse strInclude = r4 := ⟨_, rfl⟩
  have d4 : r4.2.data = d.drop c := by rw [← e4, tryParse_data]; exact d3
  have a4 : (q3.embed d c).tryParse strInclude = (r4.1, r4.2.embed d c) := by
    rw [embed_tryParse d c q3 _ d3, e4]
  have a4f : (r4.2.embed d c).skipUntilNextLine = r4.2.skipUntilNextLine.embed d c :=
    embed_skipUntilNextLine d c _ d4
  obtain ⟨q5, e5⟩ : ∃ q5, r4.2.skipNonlinebreakWhitespace = q5 := ⟨_, rfl⟩
  have d5 : q5.data = d.drop c := by rw [← e5]; exact d4
  have a5 : (r4.2.embed d c).skipNonlinebreakWhitespace = q5.embed d c := by
    rw [embed_skipNonlinebreakWhitespace d c _ d4, e5]
  obtain ⟨r6, e6⟩ : ∃ r6, q5.tryParse [chQuote] = r6 := ⟨_, rfl⟩
  have d6 : r6.2.data = d.drop c := by rw [← e6, tryParse_data]; exact d5
  have a6 : (q5.embed d c).tryParse [chQuote] = (r6.1, r6.2.embed d c) := by
    rw [embed_tryParse d c q5 _ d5, e6]
  obtain ⟨r7, e7⟩ : ∃ r7, r6.2.tryReadImportFileName pastEnd out chQuote = r7 := ⟨_, rfl⟩
  have d7 : r7.2.1.data = d.drop c := by rw [← e7]; exact d6
  have a7 : (r6.2.embed d c).tryReadImportFileName pastEnd out chQuote =
      (r7.1, r7.2.1.embed d c, r7.2.2) := by
    rw [embed_tryReadImportFileName pastEnd d c _ out chQuote d6, e7]
  have a7f : (r7.2.1.embed d c).skipUntilNextLine = r7.2.1.skipUntilNextLine.embed d c :=
    embed_skipUntilNextLine d c _ d7
  obtain ⟨r8, e8⟩ : ∃ r8, r7.2.1.tryParse [chQuote] = r8 := ⟨_, rfl⟩
  have d8 : r8.2.data = d.drop c := by rw [← e8, tryParse_data]; exact d7
  have a8 : (r7.2.1.embed d c).tryParse [chQuote] = (r8.1, r8.2.embed d c) := by
    rw [embed_tryParse d c _ _ d7, e8]
  have a8f : (r8.2.embed d c).skipUntilNextLine = r8.2.skipUntilNextLine.embed d c :=
    embed_skipUntilNextLine d c _ d8
  obtain ⟨r9, e9⟩ : ∃ r9, r6.2.tryParse [chLess] = r9 := ⟨_, rfl⟩
  have d9 : r9.2.data = d.drop c := by rw [← e9, tryParse_data]; exact d6
  have a9 : (r6.2.embed d c).tryParse [chLess] = (r9.1, r9.2.embed d c) := by
    rw [embed_tryParse d c _ _ d6, e9]
  have a9f : (r9.2.embed d c).skipUntilNextLine = r9.2.skipUntilNextLine.embed d c :=
    embed_skipUntilNextLine d c _ d9
  obtain ⟨r10, e10⟩ : ∃ r10, r9.2.tryReadImportFileName pastEnd out chGreater = r10 :=
    ⟨_, rfl⟩
  have d10 : r10.2.1.data = d.drop c := by rw [← e10]; exact d9
  have a10 : (r9.2.embed d c).tryReadImportFileName pastEnd out chGreater =
      (r10.1, r10.2.1.embed d c, r10.2.2) := by
    rw [embed_tryReadImportFileName pastEnd d c _ out chGreater d9, e10]
  have a10f : (r10.2.1.embed d c).skipUntilNextLine = r10.2.1.skipUntilNextLine.embed d c :=
    embed_skipUntilNextLine d c _ d10
  obtain ⟨r11, e11⟩ : ∃ r11, r10.2.1.tryParse [chGreater] = r11 := ⟨_, rfl⟩
  have d11 : r11.2.data = d.drop c := by rw [← e11, tryParse_data]; exact d10
  have a11 : (r10.2.1.embed d c).tryParse [chGreater] = (r11.1, r11.2.embed d c) := by
    rw [embed_tryParse d c _ _ d10, e11]
  have a11f : (r11.2.embed d c).skipUntilNextLine = r11.2.skipUntilNextLine.embed d c :=
    embed_skipUntilNextLine d c _ d11
  simp only [Parser.tryGetImport, a1, e1, a2, e2, a2f, a3, e3, a4, e4, a4f, a5, e5, a6, e6,
    a7, e7, a7f, a8, e8, a8f, a9, e9, a9f, a10, e10, a10f, a11, e11, a11f]
  split_ifs <;> rfl


theorem embed_atEnd (d : List Nat) (c : Nat) (q : Parser) (hq : q.data = d.drop c)
    (hc : c ≤ d.length) : (q.embed d c).atEnd = q.atEnd := by
  simp only [Parser.atEnd, Parser.embed, hq, List.length_drop]
  by_cases h : q.cursor = d.length - c
  · have h2 : c + q.cursor = d.length := by omega
    rw [beq_iff_eq.mpr h, beq_iff_eq.mpr h2]
  · have h2 : c + q.cursor ≠ d.length := by omega
    rw [beq_eq_false_iff_ne.mpr h, beq_eq_false_iff_ne.mpr h2]

/-- The results of the scan loop on `d` from `c + q.cursor` on are those of the loop
on the bytes of `d` from `c` on alone. -/
theorem embed_scanLoop (pastEnd : Nat) (d : List Nat) (c : Nat) (hc : c ≤ d.length)
    (fuel : Nat) (q : Parser) (hq : q.data = d.drop c) :
    (scanLoop pastEnd fuel (q.embed d c)).1 = (scanLoop pastEnd fuel q).1 := by
  induction fuel generalizing q with
  | zero => simp [scanLoop]
  | succ fuel ih =>
    simp only [scanLoop, embed_atEnd d c q hq hc, embed_tryGetImport pastEnd d c q [] hq]
    split
    · rfl
    · have hd := (tryGetImport_reaches pastEnd q []).1
      rw [ih (q.tryGetImport pastEnd []).2.1 (by rw [hd]; exact hq)]

/-- Fuel beyond the number of bytes left does not change the scan loop. -/
theorem scanLoop_fuel (pastEnd : Nat) (f1 f2 : Nat) (p : Parser)
    (hv : p.cursor ≤ p.data.length) (h1 : p.data.length - p.cursor ≤ f1)
    (h2 : p.data.length - p.cursor ≤ f2) :
    scanLoop pastEnd f1 p = scanLoop pastEnd f2 p := by
  induction f1 generalizing f2 p with
  | zero =>
    have hend : p.atEnd = true := by
      simp only [Parser.atEnd, beq_iff_eq]
      omega
    cases f2 <;> simp [scanLoop, hend]
  | succ f1 ih =>
    by_cases hend : p.atEnd = true
    · cases f2 <;> simp [scanLoop, hend]
    · have hlt : p.cursor < p.data.length := by
        simp only [Parser.atEnd, beq_iff_eq] at hend
        omega
      cases f2 with
      | zero => omega
      | succ f2 =>
        have hr := tryGetImport_reaches pastEnd p []
        have hp := tryGetImport_progress pastEnd p [] hlt
        obtain ⟨hd, _, hle⟩ := hr
        have hle := hle hv
        simp only [scanLoop, hend, Bool.false_eq_true, if_false]
        rw [ih f2 (p.tryGetImport pastEnd []).2.1 (by rw [hd]; exact hle)
          (by rw [hd]; omega) (by rw [hd]; omega)]

theorem skipAllWhitespace_step (d : List Nat) (c x : Nat) (t : List Nat)
    (h : d.drop c = x :: t) (hx : isspace x = true) :
    Parser.skipAllWhitespace ⟨d, c⟩ = Parser.skipAllWhitespace ⟨d, c + 1⟩ := by
  have e := drop_add_of_drop_eq d c [x] t h
  simp only [List.length_singleton] at e
  simp only [Parser.skipAllWhitespace, Parser.rest, h, e, skipLoop, hx, if_true]

theorem tryGetImport_skipAllWhitespace (pastEnd : Nat) (p q : Parser) (out : List Nat)
    (h : p.skipAllWhitespace = q.skipAllWhitespace) :
    p.tryGetImport pastEnd out = q.tryGetImport pastEnd out := by
  simp only [Parser.tryGetImport, h]

theorem tryGetImport_nil (pastEnd : Nat) (out : List Nat) :
    Parser.tryGetImport pastEnd ⟨[], 0⟩ out = (ImportType.fail, ⟨[], 0⟩, out) := by
  simp [Parser.tryGetImport, Parser.skipAllWhitespace, Parser.tryParse, Parser.rest, skipLoop,
    tryParseLoop, strHash, Parser.skipUntilNextLine]

/-- A whitespace byte in front of the bytes `rest` adds no candidate to the scan and
takes none away. -/
theorem scanLoop_leading_space (pastEnd : Nat) (d : List Nat) (c x : Nat) (rest : List Nat)
    (h : d.drop c = x :: rest) (hx : isspace x = true) (f f2 : Nat)
    (hf : rest.length + 1 ≤ f) (hf2 : rest.length ≤ f2) :
    candidates (scanLoop pastEnd f ⟨d, c⟩).1 =
      candidates (scanLoop pastEnd f2 ⟨rest, 0⟩).1 := by
  have hlen : d.length - c = rest.length + 1 := by
    have := congrArg List.length h
    simpa using this
  have e := drop_add_of_drop_eq d c [x] rest h
  simp only [List.length_singleton] at e
  have hemb : (⟨d, c + 1⟩ : Parser) = Parser.embed d (c + 1) ⟨rest, 0⟩ := by
    simp [Parser.embed]
  have hcall : Parser.tryGetImport pastEnd ⟨d, c⟩ [] =
      ((Parser.tryGetImport pastEnd ⟨rest, 0⟩ []).1,
        (Parser.tryGetImport pastEnd ⟨rest, 0⟩ []).2.1.embed d (c + 1),
        (Parser.tryGetImport pastEnd ⟨rest, 0⟩ []).2.2) := by
    rw [tryGetImport_skipAllWhitespace pastEnd ⟨d, c⟩ ⟨d, c + 1⟩ []
      (skipAllWhitespace_step d c x rest h hx), hemb]
    exact embed_tryGetImport pastEnd d (c + 1) ⟨rest, 0⟩ [] e.symm
  have hne : (⟨d, c⟩ : Parser).atEnd = false := by
    simp only [Parser.atEnd, beq_eq_false_iff_ne]
    omega
  obtain ⟨f0, rfl⟩ : ∃ f0, f = f0 + 1 := ⟨f - 1, by omega⟩
  simp only [scanLoop, hne, Bool.false_eq_true, if_false, hcall]
  cases rest with
  | nil =>
    have hend : (Parser.embed d (c + 1) ⟨[], 0⟩).atEnd = true := by
      simp only [Parser.atEnd, Parser.embed, beq_iff_eq]
      simp only [List.length_nil] at hlen
      omega
    have hs : scanLoop pastEnd f0 (Parser.embed d (c + 1) ⟨[], 0⟩) =
        ([], Parser.embed d (c + 1) ⟨[], 0⟩) := by
      cases f0 <;> simp [scanLoop, hend]
    have hs2 : scanLoop pastEnd f2 ⟨[], 0⟩ = ([], ⟨[], 0⟩) := by
      cases f2 <;> simp [scanLoop, Parser.atEnd]
    simp [tryGetImport_nil, hs, hs2, candidates]
  | cons y t =>
    obtain ⟨f3, rfl⟩ : ∃ f3, f2 = f3 + 1 := ⟨f2 - 1, by
      simp only [List.length_cons] at hf2
      omega⟩
    have hne2 : (⟨y :: t, 0⟩ : Parser).atEnd = false := by
      simp [Parser.atEnd]
    have hr := tryGetImport_reaches pastEnd ⟨y :: t, 0⟩ []
    have hp := tryGetImport_progress pastEnd ⟨y :: t, 0⟩ [] (by simp)
    obtain ⟨hd, _, hle⟩ := hr
    have hle := hle (Nat.zero_le _)
    simp only [List.length_cons] at hle hf hf2 hp
    simp only [scanLoop, hne2, Bool.false_eq_true, if_false]
    rw [embed_scanLoop pastEnd d (c + 1) (by omega) f0 _ (by rw [hd]; exact e.symm),
      scanLoop_fuel pastEnd f0 f3 _ (by rw [hd]; exact hle)
        (by rw [hd]; simp only [List.length_cons]; omega)
        (by rw [hd]; simp only [List.length_cons]; omega)]


/-- On the line `#inlude "x.h"` the scanner reads `#`, fails on `include` and stops in
front of the line break. -/
theorem tryGetImport_inludeLine (pastEnd : Nat) (d rest out : List Nat)
    (h : d = inludeLine ++ 10 :: rest) :
    Parser.tryGetImport pastEnd ⟨d, 0⟩ out = (ImportType.fail, ⟨d, 13⟩, out) := by
  have h0 : d.drop 0 = [] ++ (strHash ++
      ([105, 110, 108, 117, 100, 101, 32, 34, 120, 46, 104, 34] ++ 10 :: rest)) := by
    rw [h]; rfl
  have e1 := drop_add_of_drop_eq d 0 [] _ h0
  have e2 := drop_add_of_drop_eq d _ strHash _ e1
  have s1 := skipAllWhitespace_at d 0 [] _ h0 (by simp) (by simp [strHash, isspace])
  have s2 := tryParse_at d _ strHash _ e1
  have s3 := skipNonlinebreakWhitespace_at d _ [] _ e2 (by simp)
    (by simp [isNonlinebreakSpace, isspace])
  have s4 : Parser.tryParse ⟨d, 1⟩ strInclude = (false, ⟨d, 1⟩) := by
    simp only [List.length_nil, strHash, List.length_singleton] at e2
    simp [Parser.tryParse, Parser.rest, e2, tryParseLoop, strInclude]
  have s5 := skipUntilNextLine_at d _ [105, 110, 108, 117, 100, 101, 32, 34, 120, 46, 104, 34]
    (10 :: rest) e2 (by decide) (by simp [notLinebreak])
  simp only [List.length_nil, strHash, List.length_singleton, List.length_cons] at s1 s2 s3 s5
  simp [Parser.tryGetImport, s1, s2, s3, s4, s5, strHash]

theorem scanLoop_succ (pastEnd fuel : Nat) (p : Parser) (h : p.atEnd = false) :
    scanLoop pastEnd (fuel + 1) p =
      (((p.tryGetImport pastEnd []).1, (p.tryGetImport pastEnd []).2.2) ::
          (scanLoop pastEnd fuel (p.tryGetImport pastEnd []).2.1).1,
        (scanLoop pastEnd fuel (p.tryGetImport pastEnd []).2.1).2) := by
  simp only [scanLoop, h, Bool.false_eq_true, if_false]

theorem scanFile_atEnd (pastEnd : Nat) (data : List Nat) :
    (scanFile pastEnd data).2.atEnd = true :=
  (scanLoop_terminates pastEnd data.length ⟨data, 0⟩ (Nat.zero_le _) (Nat.sub_le _ _)).1

/-! ## The scanner: recovery after a malformed directive -/

/-- C3: on a buffer `#inlude "x.h"`, line break, `rest` the first call of
`tryGetImport` returns `fail`, and the calls that yield a directive while the buffer
is drained, with their names, are exactly those of draining `rest` alone; both scans
run to the end of their buffer. -/
theorem malformed_directive_recovery (pastEnd : Nat) (rest : List Nat) :
    (Parser.tryGetImport pastEnd ⟨inludeLine ++ [10] ++ rest, 0⟩ []).1 = ImportType.fail ∧
    candidates (scanFile pastEnd (inludeLine ++ [10] ++ rest)).1 =
      candidates (scanFile pastEnd rest).1 ∧
    (scanFile pastEnd (inludeLine ++ [10] ++ rest)).2.atEnd = true ∧
    (scanFile pastEnd rest).2.atEnd = true := by
  have hbuf : inludeLine ++ [10] ++ rest = inludeLine ++ 10 :: rest := by simp
  have hcall := tryGetImport_inludeLine pastEnd _ rest [] hbuf
  have hlen : (inludeLine ++ [10] ++ rest).length = (13 + rest.length) + 1 := by
    simp [inludeLine]
    omega
  have hdrop : (inludeLine ++ [10] ++ rest).drop 13 = 10 :: rest := by
    rw [hbuf]; rfl
  refine ⟨by rw [hcall], ?_, ?_, ?_⟩
  · have hne : (⟨inludeLine ++ [10] ++ rest, 0⟩ : Parser).atEnd = false := by
      simp only [Parser.atEnd, hlen, beq_eq_false_iff_ne]
      omega
    have hsp := scanLoop_leading_space pastEnd _ 13 10 rest hdrop (by decide)
      (13 + rest.length) rest.length (by omega) (Nat.le_refl _)
    unfold scanFile
    rw [hlen, scanLoop_succ pastEnd _ _ hne, hcall, ← hsp]
    rfl
  · exact scanFile_atEnd pastEnd _
  · exact scanFile_atEnd pastEnd _


/-! ## Lemmas on the file system -/

theorem symlinkCall_of_entry (fs : FileSystem) (target link : List Nat) (style : Bool)
    (n : Node) (h : symlink_status fs link = some n) :
    symlinkCall fs target link style = none := by
  unfold symlink_status at h
  unfold symlinkCall
  cases hl : fs.locate false link with
  | found loc => rfl
  | missingLast loc => rw [hl] at h; simp at h
  | notFound => rfl
  | tooLong => rfl

/-- The file system after `createSymlinkIfNecessary` is the one before, or the result
of the one call of `symlink` that it makes. -/
theorem createSymlinkIfNecessary_fs (self : RealNames) (fs : FileSystem) (p : List Nat) :
    (self.createSymlinkIfNecessary fs p).1 = fs ∨
      ∃ rn style, symlinkCall fs rn p style = some (self.createSymlinkIfNecessary fs p).1 := by
  unfold RealNames.createSymlinkIfNecessary
  split
  · exact Or.inl rfl
  · exact Or.inl rfl
  · split
    · exact Or.inl rfl
    · next rn _ =>
      split
      · exact Or.inl rfl
      · exact Or.inl rfl
      · split
        · exact Or.inl rfl
        · next isDir _ =>
          split
          · exact Or.inl rfl
          · next fs1 hc =>
            right
            refine ⟨rn, isDir, ?_⟩
            cases isDir
            · simpa [create_symlink] using hc
            · simpa [create_directory_symlink] using hc

/-! ## The index: no overwrite, unknown candidates -/

/-- C8: when an entry of any kind (file, directory or symlink) is at `referredToAs`,
`createSymlinkIfNecessary` leaves the file system as it is. -/
theorem no_overwrite (self : RealNames) (fs : FileSystem) (referredToAs : List Nat)
    (n : Node) (h : symlink_status fs referredToAs = some n) :
    (self.createSymlinkIfNecessary fs referredToAs).1 = fs := by
  rcases createSymlinkIfNecessary_fs self fs referredToAs with h1 | ⟨rn, style, h1⟩
  · exact h1
  · rw [symlinkCall_of_entry fs rn referredToAs style n h] at h1
    simp at h1

/-- C10: when the parent directory of `referredToAs` exists (it has a canonical path)
and no key of the index equals the folded candidate, so that `realNameRegistered`
returns false, `createSymlinkIfNecessary` changes nothing and prints nothing. -/
theorem unknown_candidate_ignored (self : RealNames) (fs : FileSystem)
    (referredToAs parent : List Nat)
    (hparent : canonical fs (parent_path referredToAs) = some parent)
    (hno : mapContains self.realnames
      (lowerstring (pathAppend parent (filename referredToAs))) = false) :
    self.realNameRegistered fs referredToAs = some false ∧
      self.createSymlinkIfNecessary fs referredToAs = (fs, []) := by
  have hreg : self.realNameRegistered fs referredToAs = some false := by
    simp [RealNames.realNameRegistered, lookupKey, hparent, hno]
  exact ⟨hreg, by simp [RealNames.createSymlinkIfNecessary, hreg]⟩


theorem sampleIndex_constructed :
    RealNames.construct sampleFs sampleEntries = some sampleIndex := by
  decide

theorem no_overwrite_witness :
    (sampleIndex.createSymlinkIfNecessary sampleFs (bytes "/r/LOST.H")).1 = sampleFs :=
  no_overwrite sampleIndex sampleFs (bytes "/r/LOST.H") (Node.symlink (bytes "gone") false)
    (by decide)

theorem unknown_candidate_ignored_witness :
    sampleIndex.realNameRegistered sampleFs (bytes "/r/zz.h") = some false ∧
      sampleIndex.createSymlinkIfNecessary sampleFs (bytes "/r/zz.h") = (sampleFs, []) :=
  unknown_candidate_ignored sampleIndex sampleFs (bytes "/r/zz.h") (bytes "/r")
    (by decide) (by decide)


/-! ## Lemmas on path resolution and on the new entry -/

theorem lookupNode_append (loc l : List (List Nat)) (n : Node)
    (es : List (List (List Nat) × Node)) :
    lookupNode loc (es ++ [(l, n)]) =
      match lookupNode loc es with
      | some m => some m
      | none => if l = loc then some n else none := by
  induction es with
  | nil => simp [lookupNode]
  | cons e es ih =>
    simp only [List.cons_append, lookupNode]
    split
    · rfl
    · exact ih

theorem node_addEntry_of_some (fs : FileSystem) (loc x : List (List Nat)) (n m : Node)
    (h : fs.node x = some m) : (fs.addEntry loc n).node x = some m := by
  unfold FileSystem.node at h ⊢
  by_cases hx : x = []
  · simpa [hx] using h
  · simp only [hx, if_false] at h ⊢
    simp only [FileSystem.addEntry, lookupNode_append, h]

theorem node_addEntry_self (fs : FileSystem) (loc : List (List Nat)) (n : Node)
    (h : fs.node loc = none) : (fs.addEntry loc n).node loc = some n := by
  unfold FileSystem.node at h ⊢
  by_cases hx : loc = []
  · simp [hx] at h
  · simp only [hx, if_false] at h ⊢
    simp [FileSystem.addEntry, lookupNode_append, h]

theorem node_addEntry_of_ne (fs : FileSystem) (loc x : List (List Nat)) (n : Node)
    (h : x ≠ loc) : (fs.addEntry loc n).node x = fs.node x := by
  unfold FileSystem.node
  by_cases hx : x = []
  · simp [hx]
  · simp only [hx, if_false]
    simp only [FileSystem.addEntry, lookupNode_append]
    cases lookupNode x fs.entries with
    | none => simp [Ne.symm h]
    | some m => rfl

/-- A resolution that does not end at an entry is the same with and without following
a last symlink. -/
theorem walk_follow_of_not_found (fs : FileSystem) (fuel : Nat)
    (cur names : List (List Nat))
    (h : ∀ loc, walk fs false fuel cur names ≠ WalkResult.found loc) :
    walk fs true fuel cur names = walk fs false fuel cur names := by
  induction fuel generalizing cur names with
  | zero =>
    cases names with
    | nil => simp [walk] at h
    | cons name rest => simp [walk]
  | succ fuel ih =>
    cases names with
    | nil => simp [walk] at h
    | cons name rest =>
      simp only [walk] at h ⊢
      split
      · next hdot =>
        simp only [hdot, if_true] at h
        exact ih _ _ h
      · next hdot =>
        simp only [hdot, if_false] at h
        split
        · next hdd =>
          simp only [hdd, if_true] at h
          exact ih _ _ h
        · next hdd =>
          simp only [hdd, if_false] at h
          cases hn : fs.node (cur ++ [name]) with
          | none => rfl
          | some nd =>
            rw [hn] at h
            cases nd with
            | file => rfl
            | directory => exact ih _ _ h
            | symlink target style =>
              simp only at h ⊢
              by_cases hr : rest = []
              · simp [hr] at h
              · simp only [hr, false_and, if_false] at h ⊢
                split
                · rfl
                · next ht =>
                  simp only [ht, if_false] at h
                  exact ih _ _ h

/-- A name reported missing has no entry. -/
theorem node_of_missingLast (fs : FileSystem) (follow : Bool) (fuel : Nat)
    (cur names loc : List (List Nat))
    (h : walk fs follow fuel cur names = WalkResult.missingLast loc) :
    fs.node loc = none := by
  induction fuel generalizing cur names with
  | zero =>
    cases names with
    | nil => simp [walk] at h
    | cons name rest => simp [walk] at h
  | succ fuel ih =>
    cases names with
    | nil => simp [walk] at h
    | cons name rest =>
      simp only [walk] at h
      split at h
      · exact ih _ _ h
      · split at h
        · exact ih _ _ h
        · split at h
          · next hn =>
            split at h
            · injection h with h
              rw [← h]
              exact hn
            · simp at h
          · split at h <;> simp at h
          · exact ih _ _ h
          · split at h
            · simp at h
            · split at h
              · simp at h
              · exact ih _ _ h

/-- Once the missing name is made a symlink, the same path resolves to it. -/
theorem walk_addEntry_of_missingLast (fs : FileSystem) (fuel : Nat)
    (cur names loc : List (List Nat)) (target : List Nat) (style : Bool)
    (h : walk fs false fuel cur names = WalkResult.missingLast loc) :
    walk (fs.addEntry loc (Node.symlink target style)) false fuel cur names =
      WalkResult.found loc := by
  have hnone := node_of_missingLast fs false fuel cur names loc h
  induction fuel generalizing cur names with
  | zero =>
    cases names with
    | nil => simp [walk] at h
    | cons name rest => simp [walk] at h
  | succ fuel ih =>
    cases names with
    | nil => simp [walk] at h
    | cons name rest =>
      simp only [walk] at h ⊢
      split
      · next hdot =>
        simp only [hdot, if_true] at h
        exact ih _ _ h
      · next hdot =>
        simp only [hdot, if_false] at h
        split
        · next hdd =>
          simp only [hdd, if_true] at h
          exact ih _ _ h
        · next hdd =>
          simp only [hdd, if_false] at h
          cases hn : fs.node (cur ++ [name]) with
          | none =>
            rw [hn] at h
            simp only at h
            by_cases hr : rest = []
            · simp only [hr, if_true] at h
              injection h with h
              subst h
              rw [node_addEntry_self fs _ _ hn]
              simp [hr]
            · simp [hr] at h
          | some nd =>
            rw [hn] at h
            rw [node_addEntry_of_some fs loc _ _ nd hn]
            cases nd with
            | file =>
              simp only at h
              split at h <;> simp at h
            | directory => exact ih _ _ h
            | symlink t2 s2 =>
              simp only at h ⊢
              by_cases hr : rest = []
              · simp [hr] at h
              · simp only [hr, false_and, if_false] at h ⊢
                split
                · next ht => simp [ht] at h
                · next ht =>
                  simp only [ht, if_false] at h
                  exact ih _ _ h


theorem symlinkCall_some (fs fs1 : FileSystem) (target link : List Nat) (style : Bool)
    (h : symlinkCall fs target link style = some fs1) :
    ∃ loc, fs.locate false link = WalkResult.missingLast loc ∧
      fs1 = fs.addEntry loc (Node.symlink target style) := by
  unfold symlinkCall at h
  split at h
  · next loc hl =>
    injection h with h
    exact ⟨loc, hl, h.symm⟩
  · simp at h

theorem locate_addEntry (fs : FileSystem) (loc : List (List Nat)) (n : Node)
    (follow : Bool) (p : List Nat) :
    (fs.addEntry loc n).locate follow p =
      if p = [] then WalkResult.notFound
      else walk (fs.addEntry loc n) follow walkFuel
        (if is_absolute p then [] else components fs.cwd) (components p) := rfl

/-- No entry at `link` and a successful `symlink` call: `fs::exists(link)` was false. -/
theorem pathExists_of_missingLast (fs : FileSystem) (link : List Nat)
    (loc : List (List Nat)) (h : fs.locate false link = WalkResult.missingLast loc) :
    pathExists fs link = some false := by
  have h2 : fs.locate true link = WalkResult.missingLast loc := by
    unfold FileSystem.locate at h ⊢
    by_cases hp : link = []
    · simp [hp] at h
    · simp only [hp, if_false] at h ⊢
      rw [walk_follow_of_not_found fs _ _ _ (by rw [h]; simp), h]
  simp [pathExists, status, h2]

/-! ## The index: materialization -/

/-- C9: when `realNameRegistered(referredToAs)` is true and the creation of the symlink
succeeds (which it only does when no entry is at `referredToAs`),
`createSymlinkIfNecessary` adds exactly one entry: a symlink at the place that
`referredToAs` names, with target `rn = realName(referredToAs)`, made by
`create_directory_symlink` exactly when `rn` is a directory; every other location keeps
its entry, and the mapping line is printed. -/
theorem symlink_materialized (self : RealNames) (fs fs1 : FileSystem)
    (referredToAs rn : List Nat) (isDir : Bool)
    (hreg : self.realNameRegistered fs referredToAs = some true)
    (hrn : self.realName fs referredToAs = some rn)
    (hdir : is_directory fs rn = some isDir)
    (hcreate : (if isDir then create_directory_symlink fs rn referredToAs
      else create_symlink fs rn referredToAs) = some fs1) :
    self.createSymlinkIfNecessary fs referredToAs =
        (fs1, [Output.mapping rn referredToAs]) ∧
      symlink_status fs referredToAs = none ∧
      symlink_status fs1 referredToAs = some (Node.symlink rn isDir) ∧
      ∃ loc, fs.locate false referredToAs = WalkResult.missingLast loc ∧
        fs1.entries = fs.entries ++ [(loc, Node.symlink rn isDir)] ∧
        fs1.cwd = fs.cwd ∧
        fs.node loc = none ∧
        fs1.node loc = some (Node.symlink rn isDir) ∧
        ∀ other, other ≠ loc → fs1.node other = fs.node other := by
  have hcall : symlinkCall fs rn referredToAs isDir = some fs1 := by
    cases isDir
    · simpa [create_symlink] using hcreate
    · simpa [create_directory_symlink] using hcreate
  obtain ⟨loc, hloc, hfs1⟩ := symlinkCall_some fs fs1 rn referredToAs isDir hcall
  have hex := pathExists_of_missingLast fs referredToAs loc hloc
  have hnode : fs.node loc = none := by
    unfold FileSystem.locate at hloc
    split at hloc
    · simp at hloc
    · exact node_of_missingLast fs false _ _ _ loc hloc
  refine ⟨?_, ?_, ?_, loc, hloc, ?_, ?_, hnode, ?_, ?_⟩
  · simp only [RealNames.createSymlinkIfNecessary, hreg, hrn, hex, hdir, hcreate]
  · simp [symlink_status, hloc]
  · subst hfs1
    unfold symlink_status
    rw [locate_addEntry]
    unfold FileSystem.locate at hloc
    split at hloc
    · simp at hloc
    · next hp =>
      simp only [hp, if_false]
      rw [walk_addEntry_of_missingLast fs _ _ _ loc rn isDir hloc]
      exact node_addEntry_self fs loc _ hnode
  · rw [hfs1]; rfl
  · rw [hfs1]; rfl
  · rw [hfs1]; exact node_addEntry_self fs loc _ hnode
  · intro other ho
    rw [hfs1]
    exact node_addEntry_of_ne fs loc other _ ho

theorem symlink_materialized_witness :
    sampleIndex.createSymlinkIfNecessary sampleFs (bytes "/r/src") =
        (sampleFs.addEntry [bytes "r", bytes "src"] (Node.symlink (bytes "/r/Src") true),
          [Output.mapping (bytes "/r/Src") (bytes "/r/src")]) ∧
      symlink_status sampleFs (bytes "/r/src") = none ∧
      symlink_status
          (sampleFs.addEntry [bytes "r", bytes "src"] (Node.symlink (bytes "/r/Src") true))
          (bytes "/r/src") = some (Node.symlink (bytes "/r/Src") true) ∧
      ∃ loc, sampleFs.locate false (bytes "/r/src") = WalkResult.missingLast loc ∧
        (sampleFs.addEntry [bytes "r", bytes "src"]
            (Node.symlink (bytes "/r/Src") true)).entries =
          sampleFs.entries ++ [(loc, Node.symlink (bytes "/r/Src") true)] ∧
        (sampleFs.addEntry [bytes "r", bytes "src"]
            (Node.symlink (bytes "/r/Src") true)).cwd = sampleFs.cwd ∧
        sampleFs.node loc = none ∧
        (sampleFs.addEntry [bytes "r", bytes "src"]
            (Node.symlink (bytes "/r/Src") true)).node loc =
          some (Node.symlink (bytes "/r/Src") true) ∧
        ∀ other, other ≠ loc →
          (sampleFs.addEntry [bytes "r", bytes "src"]
              (Node.symlink (bytes "/r/Src") true)).node other = sampleFs.node other :=
  symlink_materialized sampleIndex sampleFs
    (sampleFs.addEntry [bytes "r", bytes "src"] (Node.symlink (bytes "/r/Src") true))
    (bytes "/r/src") (bytes "/r/Src") true
    (by decide) (by decide) (by decide) (by decide)


/-! ## Lemmas on the map and on the constructor -/

theorem mapContains_append (m : List (List Nat × List Nat)) (k v key : List Nat) :
    mapContains (m ++ [(k, v)]) key = (mapContains m key || (k == key)) := by
  simp [mapContains]

theorem mapAt_of_not_contains (m : List (List Nat × List Nat)) (key : List Nat)
    (h : mapContains m key = false) : mapAt m key = none := by
  induction m with
  | nil => rfl
  | cons e m ih =>
    simp only [mapContains, List.any_cons, Bool.or_eq_false_iff] at h
    simp only [mapAt, List.find?_cons, h.1]
    exact ih (by simpa [mapContains] using h.2)

theorem mapAt_append_of_some (m : List (List Nat × List Nat)) (k v key value : List Nat)
    (h : mapAt m key = some value) : mapAt (m ++ [(k, v)]) key = some value := by
  induction m with
  | nil => simp [mapAt] at h
  | cons e m ih =>
    simp only [mapAt, List.cons_append, List.find?_cons] at h ⊢
    split
    · next he => simpa [he] using h
    · next he =>
      simp only [he] at h
      exact ih h

theorem mapAt_append_new (m : List (List Nat × List Nat)) (k v : List Nat)
    (h : mapContains m k = false) : mapAt (m ++ [(k, v)]) k = some v := by
  induction m with
  | nil => simp [mapAt]
  | cons e m ih =>
    simp only [mapContains, List.any_cons, Bool.or_eq_false_iff] at h
    simp only [mapAt, List.cons_append, List.find?_cons, h.1]
    exact ih (by simpa [mapContains] using h.2)

/-- `emplace` keeps every mapping that the map has. -/
theorem mapAt_emplace_of_some (m : List (List Nat × List Nat)) (k v key value : List Nat)
    (h : mapAt m key = some value) : mapAt (mapEmplace m k v) key = some value := by
  unfold mapEmplace
  split
  · exact h
  · exact mapAt_append_of_some m k v key value h

/-- `emplace` of a new key stores the value. -/
theorem mapAt_emplace_new (m : List (List Nat × List Nat)) (k v : List Nat)
    (h : mapContains m k = false) : mapAt (mapEmplace m k v) k = some v := by
  simp only [mapEmplace, h, Bool.false_eq_true, if_false]
  exact mapAt_append_new m k v h

theorem mapContains_emplace_self (m : List (List Nat × List Nat)) (k v : List Nat) :
    mapContains (mapEmplace m k v) k = true := by
  unfold mapEmplace
  split
  · next h => exact h
  · simp [mapContains_append]

theorem mapContains_emplace_of_ne (m : List (List Nat × List Nat)) (k v key : List Nat)
    (h : k ≠ key) : mapContains (mapEmplace m k v) key = mapContains m key := by
  unfold mapEmplace
  split
  · rfl
  · simp [mapContains_append, h]

theorem mapContains_of_mapAt (m : List (List Nat × List Nat)) (key value : List Nat)
    (h : mapAt m key = some value) : mapContains m key = true := by
  cases hc : mapContains m key with
  | true => rfl
  | false => rw [mapAt_of_not_contains m key hc] at h; simp at h

theorem constructLoop_append (fs : FileSystem) (a b : List (List Nat))
    (m : List (List Nat × List Nat)) :
    RealNames.constructLoop fs (a ++ b) m =
      (RealNames.constructLoop fs a m).bind (RealNames.constructLoop fs b) := by
  induction a generalizing m with
  | nil => simp [RealNames.constructLoop]
  | cons de a ih =>
    simp only [List.cons_append, RealNames.constructLoop]
    split
    · split
      · simp
      · exact ih _
    · exact ih _

/-- The constructor keeps every mapping once it is stored. -/
theorem constructLoop_keeps (fs : FileSystem) (des : List (List Nat))
    (m m1 : List (List Nat × List Nat)) (key value : List Nat)
    (h : RealNames.constructLoop fs des m = some m1) (hm : mapAt m key = some value) :
    mapAt m1 key = some value := by
  induction des generalizing m with
  | nil =>
    simp only [RealNames.constructLoop] at h
    injection h with h
    rw [← h]
    exact hm
  | cons de des ih =>
    simp only [RealNames.constructLoop] at h
    split at h
    · split at h
      · simp at h
      · exact ih _ h (mapAt_emplace_of_some m _ _ key value hm)
    · exact ih _ h hm

/-- Entries none of which folds to `key` leave `key` out of the map. -/
theorem constructLoop_not_contains (fs : FileSystem) (des : List (List Nat))
    (m m1 : List (List Nat × List Nat)) (key : List Nat)
    (h : RealNames.constructLoop fs des m = some m1) (hm : mapContains m key = false)
    (hdes : ∀ de ∈ des, is_symlink fs de = false →
      ∀ q, canonical fs de = some q → lowerstring q ≠ key) :
    mapContains m1 key = false := by
  induction des generalizing m with
  | nil =>
    simp only [RealNames.constructLoop] at h
    injection h with h
    rw [← h]
    exact hm
  | cons de des ih =>
    have hrest : ∀ de2 ∈ des, is_symlink fs de2 = false →
        ∀ q, canonical fs de2 = some q → lowerstring q ≠ key :=
      fun de2 hde2 => hdes de2 (by simp [hde2])
    simp only [RealNames.constructLoop] at h
    split at h
    · next hs =>
      split at h
      · simp at h
      · next path hc =>
        have hne := hdes de (by simp) (by simpa using hs) path hc
        exact ih _ h (by rw [mapContains_emplace_of_ne m _ _ key hne]; exact hm) hrest
    · exact ih _ h hm hrest

/-- First write wins: the entry that is the first to fold to its key gives the key its
value in the finished map. -/
theorem constructLoop_first (fs : FileSystem) (pre post : List (List Nat))
    (de path : List Nat) (m1 : List (List Nat × List Nat))
    (h : RealNames.constructLoop fs (pre ++ de :: post) [] = some m1)
    (hs : is_symlink fs de = false) (hc : canonical fs de = some path)
    (hfirst : ∀ e ∈ pre, is_symlink fs e = false →
      ∀ q, canonical fs e = some q → lowerstring q ≠ lowerstring path) :
    mapAt m1 (lowerstring path) = some path := by
  rw [constructLoop_append] at h
  cases h0 : RealNames.constructLoop fs pre [] with
  | none => simp [h0] at h
  | some m0 =>
    simp only [h0, Option.some_bind, RealNames.constructLoop, hs, Bool.not_false, if_true,
      hc] at h
    have hn := constructLoop_not_contains fs pre [] m0 (lowerstring path) h0 rfl hfirst
    exact constructLoop_keeps fs post _ m1 _ _ h (mapAt_emplace_new m0 _ path hn)

theorem mapContains_iff_mem (m : List (List Nat × List Nat)) (key : List Nat) :
    mapContains m key = true ↔ key ∈ m.map Prod.fst := by
  simp only [mapContains, List.any_eq_true, beq_iff_eq, List.mem_map]

theorem mapEmplace_nodup (m : List (List Nat × List Nat)) (k v : List Nat)
    (h : (m.map Prod.fst).Nodup) : ((mapEmplace m k v).map Prod.fst).Nodup := by
  unfold mapEmplace
  split
  · exact h
  · next hc =>
    have hk : k ∉ m.map Prod.fst := fun hmem => hc ((mapContains_iff_mem m k).mpr hmem)
    simp only [List.map_append, List.map_cons, List.map_nil]
    rw [List.nodup_append]
    refine ⟨h, List.nodup_singleton k, ?_⟩
    intro a ha hb
    simp only [List.mem_singleton] at hb
    exact hk (hb ▸ ha)

/-- The keys of the map stay distinct through the constructor. -/
theorem constructLoop_nodup (fs : FileSystem) (des : List (List Nat))
    (m m1 : List (List Nat × List Nat))
    (h : RealNames.constructLoop fs des m = some m1) (hm : (m.map Prod.fst).Nodup) :
    (m1.map Prod.fst).Nodup := by
  induction des generalizing m with
  | nil =>
    simp only [RealNames.constructLoop] at h
    injection h with h
    rw [← h]
    exact hm
  | cons de des ih =>
    simp only [RealNames.constructLoop] at h
    split at h
    · split at h
      · simp at h
      · exact ih _ h (mapEmplace_nodup m _ _ hm)
    · exact ih _ h hm


/-! ## The index: collisions of folded keys -/

/-- C7, as stated, fails: in the sample tree `/r/a.h` is met before `/r/A.h`, both are
real entries that fold to the key `/r/a.h`, and the finished map gives that key the
path of the earlier one, not of the later one. -/
theorem last_write_wins_refuted :
    RealNames.construct sampleFs sampleEntries = some sampleIndex ∧
      sampleEntries = [] ++ bytes "/r/a.h" :: [] ++ bytes "/r/A.h" ::
        [bytes "/r/Src", bytes "/r/lost.h", bytes "/r/LOST.H"] ∧
      is_symlink sampleFs (bytes "/r/a.h") = false ∧
      is_symlink sampleFs (bytes "/r/A.h") = false ∧
      canonical sampleFs (bytes "/r/a.h") = some (bytes "/r/a.h") ∧
      canonical sampleFs (bytes "/r/A.h") = some (bytes "/r/A.h") ∧
      lowerstring (bytes "/r/a.h") = lowerstring (bytes "/r/A.h") ∧
      mapAt sampleIndex.realnames (lowerstring (bytes "/r/A.h")) = some (bytes "/r/a.h") ∧
      mapAt sampleIndex.realnames (lowerstring (bytes "/r/A.h")) ≠ some (bytes "/r/A.h") := by
  decide

/-- C7, amended: when two entries met during the construction have distinct canonical
paths that fold to the same key, and the earlier one is not a symlink and is the first
entry to fold to that key, the finished map gives the key the canonical path of the
earlier one (first write wins), not that of the later one, and the key occurs once:
it is a key, and no key of the map is repeated. -/
theorem first_write_wins (fs : FileSystem) (pre mid post : List (List Nat))
    (e1 e2 p1 p2 : List Nat) (idx : RealNames)
    (hbuild : RealNames.construct fs (pre ++ e1 :: mid ++ e2 :: post) = some idx)
    (hs1 : is_symlink fs e1 = false)
    (hc1 : canonical fs e1 = some p1) (hc2 : canonical fs e2 = some p2)
    (hne : p1 ≠ p2) (hkey : lowerstring p1 = lowerstring p2)
    (hfirst : ∀ e ∈ pre, is_symlink fs e = false →
      (canonical fs e).map lowerstring ≠ some (lowerstring p1)) :
    mapAt idx.realnames (lowerstring p2) = canonical fs e1 ∧
      mapAt idx.realnames (lowerstring p2) ≠ canonical fs e2 ∧
      lowerstring p2 ∈ idx.realnames.map Prod.fst ∧
      (idx.realnames.map Prod.fst).Nodup := by
  unfold RealNames.construct at hbuild
  cases hm : RealNames.constructLoop fs (pre ++ e1 :: mid ++ e2 :: post) [] with
  | none =>
    rw [hm] at hbuild
    simp at hbuild
  | some m =>
    rw [hm] at hbuild
    simp only [Option.map_some', Option.some.injEq] at hbuild
    subst hbuild
    have hm2 : RealNames.constructLoop fs (pre ++ e1 :: (mid ++ e2 :: post)) [] = some m := by
      rw [← hm]
      simp
    have hat := constructLoop_first fs pre (mid ++ e2 :: post) e1 p1 m hm2 hs1 hc1
      (fun e he hse q hq hl => hfirst e he hse (by rw [hq, Option.map_some', hl]))
    rw [hkey] at hat
    refine ⟨by rw [hat, hc1], ?_, ?_, ?_⟩
    · rw [hat, hc2]
      intro h
      injection h with h
      exact hne h
    · exact (mapContains_iff_mem m _).mp (mapContains_of_mapAt m _ _ hat)
    · exact constructLoop_nodup fs _ [] m hm List.nodup_nil

theorem first_write_wins_witness :
    mapAt sampleIndex.realnames (lowerstring (bytes "/r/A.h")) =
        canonical sampleFs (bytes "/r/a.h") ∧
      mapAt sampleIndex.realnames (lowerstring (bytes "/r/A.h")) ≠
        canonical sampleFs (bytes "/r/A.h") ∧
      lowerstring (bytes "/r/A.h") ∈ sampleIndex.realnames.map Prod.fst ∧
      (sampleIndex.realnames.map Prod.fst).Nodup :=
  first_write_wins sampleFs [] [] [bytes "/r/Src", bytes "/r/lost.h", bytes "/r/LOST.H"]
    (bytes "/r/a.h") (bytes "/r/A.h") (bytes "/r/a.h") (bytes "/r/A.h") sampleIndex
    (by decide) (by decide) (by decide) (by decide) (by decide) (by decide) (by decide)


/-! ## Lemmas on paths -/

theorem takeWhile_append_stop (f : Nat → Bool) (a c : List Nat) (b : Nat)
    (ha : ∀ x ∈ a, f x = true) (hb : f b = false) :
    (a ++ b :: c).takeWhile f = a := by
  induction a with
  | nil => simp [List.takeWhile, hb]
  | cons x a ih =>
    simp only [List.cons_append, List.takeWhile_cons, ha x (by simp), if_true]
    rw [ih (fun y hy => ha y (by simp [hy]))]

theorem dropWhile_append_stop (f : Nat → Bool) (a c : List Nat) (b : Nat)
    (ha : ∀ x ∈ a, f x = true) (hb : f b = false) :
    (a ++ b :: c).dropWhile f = b :: c := by
  induction a with
  | nil => simp [List.dropWhile, hb]
  | cons x a ih =>
    simp only [List.cons_append, List.dropWhile_cons, ha x (by simp), if_true]
    exact ih (fun y hy => ha y (by simp [hy]))

theorem filename_no_slash (p : List Nat) : ∀ c ∈ filename p, c ≠ 47 := by
  intro c hc
  simp only [filename, List.mem_reverse] at hc
  have := List.mem_takeWhile_imp hc
  simpa using this

theorem filename_not_absolute (p : List Nat) : is_absolute (filename p) = false := by
  unfold is_absolute
  cases h : filename p with
  | nil => rfl
  | cons x t =>
    have := filename_no_slash p x (by rw [h]; simp)
    simp [this]

theorem lowerstring_append (a b : List Nat) :
    lowerstring (a ++ b) = lowerstring a ++ lowerstring b := by
  simp [lowerstring]

/-- Joining a directory with two filenames that fold to the same bytes gives paths
that fold to the same bytes. -/
theorem lowerstring_pathAppend_filename (parent a b : List Nat)
    (h : lowerstring (filename a) = lowerstring (filename b)) :
    lowerstring (pathAppend parent (filename a)) =
      lowerstring (pathAppend parent (filename b)) := by
  simp only [pathAppend, filename_not_absolute, Bool.false_eq_true, if_false]
  split
  · rw [lowerstring_append, lowerstring_append, h]
  · simp only [lowerstring, List.map_append, List.map_cons] at h ⊢
    rw [h]

/-- The shape of a rendered location: the root, or a directory part `dir` that is
empty or ends in a byte other than the separator, then a separator and a name. -/
theorem render_shape (loc : List (List Nat)) (hp : ∀ n ∈ loc, ProperName n) :
    loc = [] ∨ ∃ dir name, render loc = dir ++ 47 :: name ∧ ProperName name ∧
      (dir = [] ∨ ∃ d x, dir = d ++ [x] ∧ x ≠ 47) := by
  induction loc with
  | nil => exact Or.inl rfl
  | cons n loc ih =>
    right
    have hn := hp n (by simp)
    cases loc with
    | nil => exact ⟨[], n, by simp [render], hn, Or.inl rfl⟩
    | cons n2 loc2 =>
      rcases ih (fun m hm => hp m (by simp [hm])) with h | ⟨dir, name, hr, hname, hdir⟩
      · simp at h
      · refine ⟨47 :: n ++ dir, name, by simp [render, hr], hname, Or.inr ?_⟩
        rcases hdir with hd | ⟨d, x, hd, hx⟩
        · subst hd
          obtain ⟨n0, x, hnx⟩ : ∃ n0 x, n = n0 ++ [x] := by
            have := List.dropLast_append_getLast hn.1
            exact ⟨_, _, this.symm⟩
          refine ⟨47 :: n0, x, by simp [hnx], hn.2 x (by rw [hnx]; simp)⟩
        · exact ⟨47 :: n ++ d, x, by simp [hd], hx⟩

/-- A rendered location is its parent path joined with its filename. -/
theorem pathAppend_parent_filename_render (loc : List (List Nat))
    (hp : ∀ n ∈ loc, ProperName n) :
    pathAppend (parent_path (render loc)) (filename (render loc)) = render loc := by
  rcases render_shape loc hp with h | ⟨dir, name, hr, hname, hdir⟩
  · subst h
    decide
  · have hrev : (dir ++ 47 :: name).reverse = name.reverse ++ 47 :: dir.reverse := by simp
    have hne : ∀ x ∈ name.reverse, (fun c : Nat => c != 47) x = true := by
      intro x hx
      simpa using hname.2 x (by simpa using hx)
    have hfile : filename (render loc) = name := by
      rw [hr, filename, hrev, takeWhile_append_stop _ _ _ _ hne (by simp)]
      simp
    have hup : (render loc).reverse.dropWhile (fun c => c != 47) = 47 :: dir.reverse := by
      rw [hr, hrev, dropWhile_append_stop _ _ _ _ hne (by simp)]
    have habs : is_absolute name = false := by
      rw [← hfile]
      exact filename_not_absolute _
    rcases hdir with hd | ⟨d, x, hd, hx⟩
    · subst hd
      have hpar : parent_path (render loc) = [47] := by
        simp [parent_path, hup]
      rw [hpar, hfile, hr]
      simp [pathAppend, habs]
    · have hpar : parent_path (render loc) = dir := by
        simp only [parent_path, hup]
        simp [List.dropWhile, hd, hx]
      rw [hpar, hfile, hr]
      have hlast : dir.getLast? = some x := by simp [hd]
      have hdne : dir ≠ [] := by simp [hd]
      simp [pathAppend, habs, hlast, hdne, hx]


theorem componentsLoop_proper (p cur : List Nat) (hcur : ∀ c ∈ cur, c ≠ 47) :
    ∀ n ∈ componentsLoop p cur, ProperName n := by
  induction p generalizing cur with
  | nil =>
    intro n hn
    simp only [componentsLoop] at hn
    split at hn
    · simp at hn
    · next hne =>
      simp only [List.mem_singleton] at hn
      subst hn
      exact ⟨hne, hcur⟩
  | cons c p ih =>
    intro n hn
    simp only [componentsLoop] at hn
    split at hn
    · split at hn
      · exact ih [] (by simp) n hn
      · next hne =>
        simp only [List.mem_cons] at hn
        rcases hn with hn | hn
        · subst hn
          exact ⟨hne, hcur⟩
        · exact ih [] (by simp) n hn
    · next hc =>
      refine ih (cur ++ [c]) ?_ n hn
      intro x hx
      simp only [List.mem_append, List.mem_singleton] at hx
      rcases hx with hx | hx
      · exact hcur x hx
      · rw [hx]; exact hc

theorem components_proper (p : List Nat) : ∀ n ∈ components p, ProperName n :=
  componentsLoop_proper p [] (by simp)

/-- The names of a location that a resolution finds are proper names. -/
theorem walk_proper (fs : FileSystem) (follow : Bool) (fuel : Nat)
    (cur names loc : List (List Nat))
    (hcur : ∀ n ∈ cur, ProperName n) (hnames : ∀ n ∈ names, ProperName n)
    (h : walk fs follow fuel cur names = WalkResult.found loc) :
    ∀ n ∈ loc, ProperName n := by
  induction fuel generalizing cur names with
  | zero =>
    cases names with
    | nil =>
      simp only [walk] at h
      injection h with h
      rw [← h]
      exact hcur
    | cons name rest => simp [walk] at h
  | succ fuel ih =>
    cases names with
    | nil =>
      simp only [walk] at h
      injection h with h
      rw [← h]
      exact hcur
    | cons name rest =>
      have hname := hnames name (by simp)
      have hrest : ∀ n ∈ rest, ProperName n := fun n hn => hnames n (by simp [hn])
      have hsnoc : ∀ n ∈ cur ++ [name], ProperName n := by
        intro n hn
        simp only [List.mem_append, List.mem_singleton] at hn
        rcases hn with hn | hn
        · exact hcur n hn
        · rw [hn]; exact hname
      simp only [walk] at h
      split at h
      · exact ih _ _ hcur hrest h
      · split at h
        · exact ih _ _ (fun n hn => hcur n (List.mem_of_mem_dropLast hn)) hrest h
        · split at h
          · split at h <;> simp at h
          · split at h
            · injection h with h
              rw [← h]
              exact hsnoc
            · simp at h
          · exact ih _ _ hsnoc hrest h
          · next target style _ =>
            split at h
            · injection h with h
              rw [← h]
              exact hsnoc
            · split at h
              · simp at h
              · refine ih _ _ ?_ ?_ h
                · split
                  · simp
                  · exact hcur
                · intro n hn
                  simp only [List.mem_append] at hn
                  rcases hn with hn | hn
                  · exact components_proper target n hn
                  · exact hrest n hn

/-- A canonical path is its parent path joined with its filename. -/
theorem canonical_decomposed (fs : FileSystem) (p path : List Nat)
    (h : canonical fs p = some path) :
    pathAppend (parent_path path) (filename path) = path := by
  unfold canonical at h
  split at h
  · next loc hl =>
    injection h with h
    subst h
    apply pathAppend_parent_filename_render
    unfold FileSystem.locate at hl
    split at hl
    · simp at hl
    · refine walk_proper fs true _ _ _ loc ?_ (components_proper p) hl
      split
      · simp
      · exact components_proper fs.cwd
  · simp at h


theorem mapAt_of_contains (m : List (List Nat × List Nat)) (key : List Nat)
    (h : mapContains m key = true) : ∃ value, mapAt m key = some value := by
  induction m with
  | nil => simp [mapContains] at h
  | cons e m ih =>
    simp only [mapAt, List.find?_cons]
    cases he : e.1 == key with
    | true => exact ⟨e.2, rfl⟩
    | false =>
      have : mapContains m key = true := by
        simpa [mapContains, he] using h
      exact ih this

/-- Every real entry met by the constructor has its folded canonical path as a key. -/
theorem constructLoop_contains (fs : FileSystem) (pre post : List (List Nat))
    (de path : List Nat) (m1 : List (List Nat × List Nat))
    (h : RealNames.constructLoop fs (pre ++ de :: post) [] = some m1)
    (hs : is_symlink fs de = false) (hc : canonical fs de = some path) :
    mapContains m1 (lowerstring path) = true := by
  rw [constructLoop_append] at h
  cases h0 : RealNames.constructLoop fs pre [] with
  | none => simp [h0] at h
  | some m0 =>
    simp only [h0, Option.some_bind, RealNames.constructLoop, hs, Bool.not_false, if_true,
      hc] at h
    obtain ⟨value, hv⟩ := mapAt_of_contains _ _ (mapContains_emplace_self m0 (lowerstring path) path)
    exact mapContains_of_mapAt m1 _ value (constructLoop_keeps fs post _ m1 _ _ h hv)

/-- The key that the lookups build for a case variant of a canonical path. -/
theorem lookupKey_case_variant (fs : FileSystem) (e path variant : List Nat)
    (hc : canonical fs e = some path)
    (hname : lowerstring (filename variant) = lowerstring (filename path))
    (hparent : canonical fs (parent_path variant) = some (parent_path path)) :
    lookupKey fs variant = some (lowerstring path) := by
  simp only [lookupKey, hparent, Option.map_some']
  rw [lowerstring_pathAppend_filename (parent_path path) variant path hname,
    canonical_decomposed fs e path hc]

/-! ## The index: case lookup -/

/-- C6, as stated, fails: in the sample tree the index is built from the entries,
`/r/A.h` is a real entry with canonical path `/r/A.h`, the path `/r/A.H` is a case
variant in the same directory, and `realName` returns `/r/a.h` for it. -/
theorem case_lookup_refuted :
    RealNames.construct sampleFs sampleEntries = some sampleIndex ∧
      bytes "/r/A.h" ∈ sampleEntries ∧
      is_symlink sampleFs (bytes "/r/A.h") = false ∧
      canonical sampleFs (bytes "/r/A.h") = some (bytes "/r/A.h") ∧
      lowerstring (filename (bytes "/r/A.H")) = lowerstring (filename (bytes "/r/A.h")) ∧
      canonical sampleFs (parent_path (bytes "/r/A.H")) =
        some (parent_path (bytes "/r/A.h")) ∧
      sampleIndex.realNameRegistered sampleFs (bytes "/r/A.H") = some true ∧
      sampleIndex.realName sampleFs (bytes "/r/A.H") = some (bytes "/r/a.h") ∧
      sampleIndex.realName sampleFs (bytes "/r/A.H") ≠ some (bytes "/r/A.h") := by
  decide

/-- C6, amended: for the index built from the entries `pre ++ e :: post`, a real entry
`e` with canonical path `path`, and a path `variant` whose filename folds to the
filename of `path` and whose parent directory canonicalizes to the parent of `path`:
`realNameRegistered(variant)` is true, and `realName(variant)` returns `path` when `e`
is the first entry met whose canonical path folds to that key. -/
theorem case_lookup_first (fs : FileSystem) (pre post : List (List Nat))
    (e path variant : List Nat) (idx : RealNames)
    (hbuild : RealNames.construct fs (pre ++ e :: post) = some idx)
    (hs : is_symlink fs e = false) (hc : canonical fs e = some path)
    (hname : lowerstring (filename variant) = lowerstring (filename path))
    (hparent : canonical fs (parent_path variant) = some (parent_path path)) :
    idx.realNameRegistered fs variant = some true ∧
      ((∀ e0 ∈ pre, is_symlink fs e0 = false →
          (canonical fs e0).map lowerstring ≠ some (lowerstring path)) →
        idx.realName fs variant = some path) := by
  have hkey := lookupKey_case_variant fs e path variant hc hname hparent
  unfold RealNames.construct at hbuild
  cases hm : RealNames.constructLoop fs (pre ++ e :: post) [] with
  | none =>
    rw [hm] at hbuild
    simp at hbuild
  | some m =>
    rw [hm] at hbuild
    simp only [Option.map_some', Option.some.injEq] at hbuild
    subst hbuild
    refine ⟨?_, fun hfirst => ?_⟩
    · simp only [RealNames.realNameRegistered, hkey, Option.map_some']
      rw [constructLoop_contains fs pre post e path m hm hs hc]
    · simp only [RealNames.realName, hkey, Option.some_bind]
      exact constructLoop_first fs pre post e path m hm hs hc
        (fun e0 he hse q hq hl => hfirst e0 he hse (by rw [hq, Option.map_some', hl]))

theorem case_lookup_first_witness :
    sampleIndex.realNameRegistered sampleFs (bytes "/r/SRC") = some true ∧
      sampleIndex.realName sampleFs (bytes "/r/SRC") = some (bytes "/r/Src") :=
  ⟨(case_lookup_first sampleFs [bytes "/r/a.h", bytes "/r/A.h"]
      [bytes "/r/lost.h", bytes "/r/LOST.H"] (bytes "/r/Src") (bytes "/r/Src")
      (bytes "/r/SRC") sampleIndex (by decide) (by decide) (by decide) (by decide)
      (by decide)).1,
    (case_lookup_first sampleFs [bytes "/r/a.h", bytes "/r/A.h"]
      [bytes "/r/lost.h", bytes "/r/LOST.H"] (bytes "/r/Src") (bytes "/r/Src")
      (bytes "/r/SRC") sampleIndex (by decide) (by decide) (by decide) (by decide)
      (by decide)).2 (by decide)⟩


/-! ## Errors stay inside `createSymlinkIfNecessary` -/

theorem lookupKey_none (fs : FileSystem) (path : List Nat)
    (h : canonical fs (parent_path path) = none) : lookupKey fs path = none := by
  simp [lookupKey, h]

theorem realNameRegistered_none (self : RealNames) (fs : FileSystem) (path : List Nat)
    (h : canonical fs (parent_path path) = none) :
    self.realNameRegistered fs path = none := by
  simp [RealNames.realNameRegistered, lookupKey_none fs path h]

/-- A `true` from `realNameRegistered` means that the key is in the map, so that the
`at` of `realName` finds it. -/
theorem realName_of_registered (self : RealNames) (fs : FileSystem) (path : List Nat)
    (h : self.realNameRegistered fs path = some true) :
    ∃ key rn, lookupKey fs path = some key ∧ mapAt self.realnames key = some rn ∧
      self.realName fs path = some rn := by
  unfold RealNames.realNameRegistered at h
  cases hk : lookupKey fs path with
  | none => simp [hk] at h
  | some key =>
    simp only [hk, Option.map_some', Option.some.injEq] at h
    obtain ⟨rn, hrn⟩ := mapAt_of_contains self.realnames key h
    exact ⟨key, rn, rfl, hrn, by simp [RealNames.realName, hk, hrn]⟩

/-- C11: `createSymlinkIfNecessary` returns a file system and the printed lines for
every index, state and path, and each failure is caught inside: when `fs::canonical`
of the parent throws, when `fs::exists` throws, when `fs::is_directory` throws and
when the creation of the symlink throws, the call returns with the file system
unchanged and the line of the ignored error printed last. -/
theorem errors_are_local (self : RealNames) (fs : FileSystem) (referredToAs : List Nat) :
    (canonical fs (parent_path referredToAs) = none →
      self.createSymlinkIfNecessary fs referredToAs = (fs, [Output.ignoredError])) ∧
    (self.realNameRegistered fs referredToAs = some true →
      pathExists fs referredToAs = none →
      self.createSymlinkIfNecessary fs referredToAs = (fs, [Output.ignoredError])) ∧
    (∀ rn, self.realNameRegistered fs referredToAs = some true →
      self.realName fs referredToAs = some rn →
      pathExists fs referredToAs = some false →
      is_directory fs rn = none →
      self.createSymlinkIfNecessary fs referredToAs =
        (fs, [Output.mapping rn referredToAs, Output.ignoredError])) ∧
    (∀ rn isDir, self.realNameRegistered fs referredToAs = some true →
      self.realName fs referredToAs = some rn →
      pathExists fs referredToAs = some false →
      is_directory fs rn = some isDir →
      (if isDir then create_directory_symlink fs rn referredToAs
        else create_symlink fs rn referredToAs) = none →
      self.createSymlinkIfNecessary fs referredToAs =
        (fs, [Output.mapping rn referredToAs, Output.ignoredError])) ∧
    ((self.createSymlinkIfNecessary fs referredToAs).1 = fs ∨
      ∃ rn style, symlinkCall fs rn referredToAs style =
        some (self.createSymlinkIfNecessary fs referredToAs).1) := by
  refine ⟨?_, ?_, ?_, ?_, createSymlinkIfNecessary_fs self fs referredToAs⟩
  · intro h
    simp [RealNames.createSymlinkIfNecessary, realNameRegistered_none self fs referredToAs h]
  · intro hreg hex
    obtain ⟨key, rn, _, _, hrn⟩ := realName_of_registered self fs referredToAs hreg
    simp [RealNames.createSymlinkIfNecessary, hreg, hrn, hex]
  · intro rn hreg hrn hex hdir
    simp [RealNames.createSymlinkIfNecessary, hreg, hrn, hex, hdir]
  · intro rn isDir hreg hrn hex hdir hcreate
    simp only [RealNames.createSymlinkIfNecessary, hreg, hrn, hex, hdir, hcreate]


/-! ## The index: lookup with a missing parent -/

theorem canonical_none_of_not_found (fs : FileSystem) (p : List Nat)
    (h : ∀ loc, fs.locate true p ≠ WalkResult.found loc) : canonical fs p = none := by
  unfold canonical
  split
  · next loc hl => exact absurd hl (h loc)
  · rfl

theorem pathExists_of_not_found (fs : FileSystem) (p : List Nat)
    (h : ∀ loc, fs.locate true p ≠ WalkResult.found loc) : pathExists fs p ≠ some true := by
  unfold pathExists status
  split
  · next loc hl => exact absurd hl (h loc)
  · simp
  · simp

/-- C12, as stated, fails: in the sample tree the directory `/q` does not exist, and
`realNameRegistered("/q/zz.h")` throws instead of returning false. -/
theorem missing_parent_refuted :
    pathExists sampleFs (parent_path (bytes "/q/zz.h")) = some false ∧
      sampleIndex.realNameRegistered sampleFs (bytes "/q/zz.h") = none ∧
      sampleIndex.realNameRegistered sampleFs (bytes "/q/zz.h") ≠ some false := by
  decide

/-- C12, amended: when the parent directory of `candidate` does not exist (its path
leads to no entry), `realNameRegistered(candidate)` fails with the exception of
`fs::canonical`, as does `realName(candidate)`; `createSymlinkIfNecessary` catches it,
leaves the file system as it is and prints the line of the ignored error. -/
theorem missing_parent_throws (self : RealNames) (fs : FileSystem) (candidate : List Nat)
    (hparent : ∀ loc, fs.locate true (parent_path candidate) ≠ WalkResult.found loc) :
    pathExists fs (parent_path candidate) ≠ some true ∧
      self.realNameRegistered fs candidate = none ∧
      self.realName fs candidate = none ∧
      self.createSymlinkIfNecessary fs candidate = (fs, [Output.ignoredError]) := by
  have hc := canonical_none_of_not_found fs _ hparent
  have hreg := realNameRegistered_none self fs candidate hc
  refine ⟨pathExists_of_not_found fs _ hparent, hreg, ?_, ?_⟩
  · simp [RealNames.realName, lookupKey_none fs candidate hc]
  · simp [RealNames.createSymlinkIfNecessary, hreg]

theorem missing_parent_throws_witness :
    pathExists sampleFs (parent_path (bytes "/q/zz.h")) ≠ some true ∧
      sampleIndex.realNameRegistered sampleFs (bytes "/q/zz.h") = none ∧
      sampleIndex.realName sampleFs (bytes "/q/zz.h") = none ∧
      sampleIndex.createSymlinkIfNecessary sampleFs (bytes "/q/zz.h") =
        (sampleFs, [Output.ignoredError]) :=
  missing_parent_throws sampleIndex sampleFs (bytes "/q/zz.h") (by
    intro loc
    have h : sampleFs.locate true (parent_path (bytes "/q/zz.h")) =
        WalkResult.missingLast [bytes "q"] := by decide
    rw [h]
    simp)

/-! ## The index: guarded resolve -/

/-- C18: `createSymlinkIfNecessary` calls `realName` only where `realNameRegistered`
returned true for the same index, state and path, and there the key is in the map:
the `at` of `realName` returns a path and its missing-key failure does not occur. Where
`realNameRegistered` threw or returned false the result is fixed without `realName`. -/
theorem guarded_resolve (self : RealNames) (fs : FileSystem) (referredToAs : List Nat) :
    (self.realNameRegistered fs referredToAs = some true →
      ∃ key rn, lookupKey fs referredToAs = some key ∧
        mapAt self.realnames key = some rn ∧ self.realName fs referredToAs = some rn) ∧
    (self.realNameRegistered fs referredToAs = none →
      self.createSymlinkIfNecessary fs referredToAs = (fs, [Output.ignoredError])) ∧
    (self.realNameRegistered fs referredToAs = some false →
      self.createSymlinkIfNecessary fs referredToAs = (fs, [])) := by
  refine ⟨realName_of_registered self fs referredToAs, ?_, ?_⟩
  · intro h
    simp [RealNames.createSymlinkIfNecessary, h]
  · intro h
    simp [RealNames.createSymlinkIfNecessary, h]


/-! ## The index: contents -/

theorem mem_mapEmplace (m : List (List Nat × List Nat)) (k v : List Nat)
    (kv : List Nat × List Nat) (h : kv ∈ mapEmplace m k v) : kv ∈ m ∨ kv = (k, v) := by
  unfold mapEmplace at h
  split at h
  · exact Or.inl h
  · simpa using h

/-- Symlink entries do not change the map under construction. -/
theorem constructLoop_filter (fs : FileSystem) (des : List (List Nat))
    (m : List (List Nat × List Nat)) :
    RealNames.constructLoop fs (des.filter (fun de => !is_symlink fs de)) m =
      RealNames.constructLoop fs des m := by
  induction des generalizing m with
  | nil => rfl
  | cons de des ih =>
    cases hs : is_symlink fs de with
    | true =>
      simp only [List.filter_cons, hs, Bool.not_true, Bool.false_eq_true, if_false,
        RealNames.constructLoop]
      exact ih m
    | false =>
      simp only [List.filter_cons, hs, Bool.not_false, if_true, RealNames.constructLoop]
      cases canonical fs de with
      | none => rfl
      | some path => exact ih _

/-- Every pair of the finished map was in the map at the start or was stored for a
real entry, as the folded canonical path and the canonical path. -/
theorem constructLoop_pairs (fs : FileSystem) (des : List (List Nat))
    (m m1 : List (List Nat × List Nat))
    (h : RealNames.constructLoop fs des m = some m1) (kv : List Nat × List Nat)
    (hkv : kv ∈ m1) :
    kv ∈ m ∨ (kv.1 = lowerstring kv.2 ∧
      ∃ de ∈ des, is_symlink fs de = false ∧ canonical fs de = some kv.2) := by
  induction des generalizing m with
  | nil =>
    simp only [RealNames.constructLoop, Option.some.injEq] at h
    subst h
    exact Or.inl hkv
  | cons de des ih =>
    simp only [RealNames.constructLoop] at h
    split at h
    · next hs =>
      split at h
      · simp at h
      · next path hc =>
        rcases ih _ h with h1 | ⟨h1, e, he, hse, hce⟩
        · rcases mem_mapEmplace m _ _ kv h1 with h2 | h2
          · exact Or.inl h2
          · right
            subst h2
            exact ⟨rfl, de, by simp, by simpa using hs, hc⟩
        · exact Or.inr ⟨h1, e, by simp [he], hse, hce⟩
    · rcases ih _ h with h1 | ⟨h1, e, he, hse, hce⟩
      · exact Or.inl h1
      · exact Or.inr ⟨h1, e, by simp [he], hse, hce⟩

/-- A finished construction found a canonical path for every real entry. -/
theorem constructLoop_canonical (fs : FileSystem) (pre post : List (List Nat))
    (de : List Nat) (m m1 : List (List Nat × List Nat))
    (h : RealNames.constructLoop fs (pre ++ de :: post) m = some m1)
    (hs : is_symlink fs de = false) : ∃ path, canonical fs de = some path := by
  rw [constructLoop_append] at h
  cases h0 : RealNames.constructLoop fs pre m with
  | none => simp [h0] at h
  | some m0 =>
    simp only [h0, Option.some_bind, RealNames.constructLoop, hs, Bool.not_false,
      if_true] at h
    cases hc : canonical fs de with
    | none => simp [hc] at h
    | some path => exact ⟨path, rfl⟩

/-- C16: after the construction of `RealNames` over the entries `des`, the symlink
entries have contributed nothing (the map is the one built from the other entries
alone), the folded canonical path of every entry that is not a symlink is a key, and
every stored pair `(k, v)` has `k = lowerstring v` with `v` the canonical path of an
entry that is not a symlink. -/
theorem index_contents (fs : FileSystem) (des : List (List Nat)) (idx : RealNames)
    (hbuild : RealNames.construct fs des = some idx) :
    RealNames.construct fs (des.filter (fun de => !is_symlink fs de)) = some idx ∧
    (∀ de ∈ des, is_symlink fs de = false →
      ∃ path, canonical fs de = some path ∧
        mapContains idx.realnames (lowerstring path) = true) ∧
    (∀ kv ∈ idx.realnames, kv.1 = lowerstring kv.2 ∧
      ∃ de ∈ des, is_symlink fs de = false ∧ canonical fs de = some kv.2) := by
  unfold RealNames.construct at hbuild ⊢
  cases hm : RealNames.constructLoop fs des [] with
  | none =>
    rw [hm] at hbuild
    simp at hbuild
  | some m =>
    rw [hm] at hbuild
    simp only [Option.map_some', Option.some.injEq] at hbuild
    subst hbuild
    refine ⟨by rw [constructLoop_filter, hm]; rfl, ?_, ?_⟩
    · intro de hde hs
      obtain ⟨pre, post, hsplit⟩ := List.append_of_mem hde
      rw [hsplit] at hm
      obtain ⟨path, hc⟩ := constructLoop_canonical fs pre post de [] m hm hs
      exact ⟨path, hc, constructLoop_contains fs pre post de path m hm hs hc⟩
    · intro kv hkv
      rcases constructLoop_pairs fs des [] m hm kv hkv with h | h
      · simp at h
      · exact h

theorem index_contents_witness :
    RealNames.construct sampleFs
        (sampleEntries.filter (fun de => !is_symlink sampleFs de)) = some sampleIndex ∧
    (∀ de ∈ sampleEntries, is_symlink sampleFs de = false →
      ∃ path, canonical sampleFs de = some path ∧
        mapContains sampleIndex.realnames (lowerstring path) = true) ∧
    (∀ kv ∈ sampleIndex.realnames, kv.1 = lowerstring kv.2 ∧
      ∃ de ∈ sampleEntries, is_symlink sampleFs de = false ∧
        canonical sampleFs de = some kv.2) :=
  index_contents sampleFs sampleEntries sampleIndex (by decide)


/-! ## The index: a second call -/

/-- An entry added at the end of the table does not change a resolution that ends at
an entry. -/
theorem walk_addEntry_found (fs : FileSystem) (loc : List (List Nat)) (n : Node)
    (follow : Bool) (fuel : Nat) (cur names l : List (List Nat))
    (h : walk fs follow fuel cur names = WalkResult.found l) :
    walk (fs.addEntry loc n) follow fuel cur names = WalkResult.found l := by
  induction fuel generalizing cur names with
  | zero =>
    cases names with
    | nil => simpa [walk] using h
    | cons name rest => simp [walk] at h
  | succ fuel ih =>
    cases names with
    | nil => simpa [walk] using h
    | cons name rest =>
      simp only [walk] at h ⊢
      split
      · next hdot =>
        simp only [hdot, if_true] at h
        exact ih _ _ h
      · next hdot =>
        simp only [hdot, if_false] at h
        split
        · next hdd =>
          simp only [hdd, if_true] at h
          exact ih _ _ h
        · next hdd =>
          simp only [hdd, if_false] at h
          cases hn : fs.node (cur ++ [name]) with
          | none =>
            rw [hn] at h
            simp only at h
            split at h <;> simp at h
          | some nd =>
            rw [hn] at h
            rw [node_addEntry_of_some fs loc _ n nd hn]
            cases nd with
            | file => exact h
            | directory => exact ih _ _ h
            | symlink t2 s2 =>
              simp only at h ⊢
              split
              · next hc => simpa [hc] using h
              · next hc =>
                simp only [hc, if_false] at h
                split
                · next ht => simp [ht] at h
                · next ht =>
                  simp only [ht, if_false] at h
                  exact ih _ _ h

theorem canonical_addEntry (fs : FileSystem) (loc : List (List Nat)) (n : Node)
    (p path : List Nat) (h : canonical fs p = some path) :
    canonical (fs.addEntry loc n) p = some path := by
  unfold canonical at h ⊢
  split at h
  · next l hl =>
    have hl2 : (fs.addEntry loc n).locate true p = WalkResult.found l := by
      rw [locate_addEntry]
      unfold FileSystem.locate at hl
      split at hl
      · simp at hl
      · next hp =>
        simp only [hp, if_false]
        exact walk_addEntry_found fs loc n true _ _ _ l hl
    rw [hl2]
    exact h
  · simp at h

theorem lookupKey_addEntry (fs : FileSystem) (loc : List (List Nat)) (n : Node)
    (p key : List Nat) (h : lookupKey fs p = some key) :
    lookupKey (fs.addEntry loc n) p = some key := by
  unfold lookupKey at h ⊢
  cases hc : canonical fs (parent_path p) with
  | none => simp [hc] at h
  | some parent =>
    rw [canonical_addEntry fs loc n _ parent hc]
    rw [hc] at h
    exact h

/-- After a successful `symlink` call the link path names the new symlink. -/
theorem symlink_status_after_symlinkCall (fs fs1 : FileSystem) (target link : List Nat)
    (style : Bool) (h : symlinkCall fs target link style = some fs1) :
    symlink_status fs1 link = some (Node.symlink target style) := by
  obtain ⟨loc, hloc, hfs1⟩ := symlinkCall_some fs fs1 target link style h
  subst hfs1
  unfold symlink_status
  rw [locate_addEntry]
  unfold FileSystem.locate at hloc
  split at hloc
  · simp at hloc
  · next hp =>
    simp only [hp, if_false]
    rw [walk_addEntry_of_missingLast fs _ _ _ loc target style hloc]
    exact node_addEntry_self fs loc _ (node_of_missingLast fs false _ _ _ loc hloc)

/-- With an entry at the path the call leaves the file system as it is. -/
theorem createSymlinkIfNecessary_of_entry (self : RealNames) (fs : FileSystem)
    (p : List Nat) (n : Node) (h : symlink_status fs p = some n) :
    (self.createSymlinkIfNecessary fs p).1 = fs := by
  rcases createSymlinkIfNecessary_fs self fs p with h1 | ⟨rn, style, h1⟩
  · exact h1
  · rw [symlinkCall_of_entry fs rn p style n h] at h1
    simp at h1

/-- A call that changed the file system went through the creation of the symlink. -/
theorem createSymlinkIfNecessary_created (self : RealNames) (fs : FileSystem)
    (p : List Nat) (h : (self.createSymlinkIfNecessary fs p).1 ≠ fs) :
    self.realNameRegistered fs p = some true ∧
      ∃ rn style, self.realName fs p = some rn ∧
        symlinkCall fs rn p style = some (self.createSymlinkIfNecessary fs p).1 ∧
        (self.createSymlinkIfNecessary fs p).2 = [Output.mapping rn p] := by
  cases hreg : self.realNameRegistered fs p with
  | none => simp [RealNames.createSymlinkIfNecessary, hreg] at h
  | some b =>
    cases b with
    | false => simp [RealNames.createSymlinkIfNecessary, hreg] at h
    | true =>
      refine ⟨rfl, ?_⟩
      cases hrn : self.realName fs p with
      | none => simp [RealNames.createSymlinkIfNecessary, hreg, hrn] at h
      | some rn =>
        cases hex : pathExists fs p with
        | none => simp [RealNames.createSymlinkIfNecessary, hreg, hrn, hex] at h
        | some e =>
          cases e with
          | true => simp [RealNames.createSymlinkIfNecessary, hreg, hrn, hex] at h
          | false =>
            cases hdir : is_directory fs rn with
            | none => simp [RealNames.createSymlinkIfNecessary, hreg, hrn, hex, hdir] at h
            | some isDir =>
              cases hc : (if isDir then create_directory_symlink fs rn p
                else create_symlink fs rn p) with
              | none =>
                simp only [RealNames.createSymlinkIfNecessary, hreg, hrn, hex, hdir, hc] at h
                exact absurd rfl h
              | some fs1 =>
                simp only [RealNames.createSymlinkIfNecessary, hreg, hrn, hex, hdir, hc]
                refine ⟨rn, isDir, rfl, ?_, rfl⟩
                cases isDir
                · simpa [create_symlink] using hc
                · simpa [create_directory_symlink] using hc


/-- C13, as stated, fails in its second part: the index built while `/r/Ghost.h`
existed is used on the tree without that file. The first call for `/r/ghost.h` makes
the symlink; the second call finds no entry through it (`fs::exists` follows the link
to the missing target), prints the mapping again and reports the failed creation. The
file system is the same after both calls. -/
theorem second_call_reports_error :
    RealNames.construct ghostFs [bytes "/r/Ghost.h"] = some ghostIndex ∧
      ghostIndex.createSymlinkIfNecessary sampleFs (bytes "/r/ghost.h") =
        (sampleFs.addEntry [bytes "r", bytes "ghost.h"]
            (Node.symlink (bytes "/r/Ghost.h") false),
          [Output.mapping (bytes "/r/Ghost.h") (bytes "/r/ghost.h")]) ∧
      ghostIndex.createSymlinkIfNecessary
          (sampleFs.addEntry [bytes "r", bytes "ghost.h"]
            (Node.symlink (bytes "/r/Ghost.h") false)) (bytes "/r/ghost.h") =
        (sampleFs.addEntry [bytes "r", bytes "ghost.h"]
            (Node.symlink (bytes "/r/Ghost.h") false),
          [Output.mapping (bytes "/r/Ghost.h") (bytes "/r/ghost.h"),
            Output.ignoredError]) := by
  decide

/-- C13, amended: two calls of `createSymlinkIfNecessary(referredToAs)` in succession
leave the same file system as one call. After a first call that made the symlink, the
link path names that symlink and the second call changes nothing; it prints nothing
and reports no error when `fs::exists(referredToAs)` then holds, that is when the
link resolves to an existing target. -/
theorem materialization_idempotent (self : RealNames) (fs : FileSystem)
    (referredToAs : List Nat) :
    (self.createSymlinkIfNecessary (self.createSymlinkIfNecessary fs referredToAs).1
        referredToAs).1 = (self.createSymlinkIfNecessary fs referredToAs).1 ∧
    ((self.createSymlinkIfNecessary fs referredToAs).1 ≠ fs →
      (∃ rn style, self.realName fs referredToAs = some rn ∧
        symlink_status (self.createSymlinkIfNecessary fs referredToAs).1 referredToAs =
          some (Node.symlink rn style)) ∧
      (pathExists (self.createSymlinkIfNecessary fs referredToAs).1 referredToAs =
          some true →
        self.createSymlinkIfNecessary (self.createSymlinkIfNecessary fs referredToAs).1
          referredToAs = ((self.createSymlinkIfNecessary fs referredToAs).1, []))) := by
  have key : (self.createSymlinkIfNecessary fs referredToAs).1 ≠ fs →
      self.realNameRegistered fs referredToAs = some true ∧
      ∃ rn style, self.realName fs referredToAs = some rn ∧
        symlinkCall fs rn referredToAs style =
          some (self.createSymlinkIfNecessary fs referredToAs).1 ∧
        symlink_status (self.createSymlinkIfNecessary fs referredToAs).1 referredToAs =
          some (Node.symlink rn style) := by
    intro hne
    obtain ⟨hreg, rn, style, hrn, hcall, _⟩ :=
      createSymlinkIfNecessary_created self fs referredToAs hne
    exact ⟨hreg, rn, style, hrn, hcall,
      symlink_status_after_symlinkCall fs _ rn referredToAs style hcall⟩
  refine ⟨?_, fun hne => ?_⟩
  · by_cases hne : (self.createSymlinkIfNecessary fs referredToAs).1 = fs
    · rw [hne, hne]
    · obtain ⟨_, rn, style, _, _, hst⟩ := key hne
      exact createSymlinkIfNecessary_of_entry self _ referredToAs _ hst
  · obtain ⟨hreg, rn, style, hrn, hcall, hst⟩ := key hne
    refine ⟨⟨rn, style, hrn, hst⟩, fun hex => ?_⟩
    obtain ⟨loc, _, hfs1⟩ := symlinkCall_some fs _ rn referredToAs style hcall
    obtain ⟨k, rn2, hk, hat, hrn2⟩ := realName_of_registered self fs referredToAs hreg
    have hk1 : lookupKey (self.createSymlinkIfNecessary fs referredToAs).1 referredToAs =
        some k := by
      rw [hfs1]
      exact lookupKey_addEntry fs loc _ referredToAs k hk
    have hc : mapContains self.realnames k = true := mapContains_of_mapAt _ _ _ hat
    have hreg1 : self.realNameRegistered (self.createSymlinkIfNecessary fs referredToAs).1
        referredToAs = some true := by
      simp [RealNames.realNameRegistered, hk1, hc]
    have hrn1 : self.realName (self.createSymlinkIfNecessary fs referredToAs).1
        referredToAs = some rn2 := by
      simp [RealNames.realName, hk1, hat]
    generalize (self.createSymlinkIfNecessary fs referredToAs).1 = fs1 at hreg1 hrn1 hex ⊢
    simp [RealNames.createSymlinkIfNecessary, hreg1, hrn1, hex]

theorem materialization_idempotent_witness :
    (sampleIndex.createSymlinkIfNecessary
        (sampleIndex.createSymlinkIfNecessary sampleFs (bytes "/r/src")).1
        (bytes "/r/src")).1 =
      (sampleIndex.createSymlinkIfNecessary sampleFs (bytes "/r/src")).1 ∧
    sampleIndex.createSymlinkIfNecessary
        (sampleIndex.createSymlinkIfNecessary sampleFs (bytes "/r/src")).1
        (bytes "/r/src") =
      ((sampleIndex.createSymlinkIfNecessary sampleFs (bytes "/r/src")).1, []) :=
  ⟨(materialization_idempotent sampleIndex sampleFs (bytes "/r/src")).1,
    ((materialization_idempotent sampleIndex sampleFs (bytes "/r/src")).2
      (by decide)).2 (by decide)⟩


/-! ## The driver: candidates of a directive -/

theorem call_calls (realNames : RealNames) (st : Driver) (referredToAs : List Nat) :
    (st.call realNames referredToAs).calls = st.calls ++ [referredToAs] := rfl

theorem foldl_call_calls (realNames : RealNames) (name : List Nat)
    (libpaths : List (List Nat)) (st : Driver) :
    (libpaths.foldl (fun s libpath => s.call realNames (pathAppend libpath name)) st).calls =
      st.calls ++ libpaths.map (fun libpath => pathAppend libpath name) := by
  induction libpaths generalizing st with
  | nil => simp
  | cons libpath libpaths ih =>
    simp only [List.foldl_cons, List.map_cons]
    rw [ih, call_calls]
    simp

/-- The scan loop of `main` does the body once for every result of the scan, in
order. -/
theorem mainScanLoop_eq_foldl (realNames : RealNames) (canonicalpath : List Nat)
    (libpaths : List (List Nat)) (pastEnd fuel : Nat) (p : Parser) (st : Driver) :
    mainScanLoop realNames canonicalpath libpaths pastEnd fuel p st =
      (scanLoop pastEnd fuel p).1.foldl
        (fun s r => handleImport realNames canonicalpath libpaths s r.1 r.2) st := by
  induction fuel generalizing p st with
  | zero => simp [mainScanLoop, scanLoop]
  | succ fuel ih =>
    simp only [mainScanLoop, scanLoop]
    split
    · simp
    · simp only [List.foldl_cons]
      exact ih _ _

/-- C15: for a directive found in the file with canonical path `canonicalpath` and the
search roots `libpaths`, the driver calls `createSymlinkIfNecessary` exactly once, with
`parent(canonicalpath) / name`, when the kind is `quotes`; exactly once for every root,
with `root / name` in the order of the roots, when the kind is `angles`; and not at all
for `fail`. The scan loop does this for every result of the scan in turn. -/
theorem candidates_per_kind (realNames : RealNames) (canonicalpath : List Nat)
    (libpaths : List (List Nat)) (st : Driver) (name : List Nat) (pastEnd fuel : Nat)
    (p : Parser) :
    (handleImport realNames canonicalpath libpaths st ImportType.quotes name).calls =
      st.calls ++ [pathAppend (parent_path canonicalpath) name] ∧
    (handleImport realNames canonicalpath libpaths st ImportType.angles name).calls =
      st.calls ++ libpaths.map (fun root => pathAppend root name) ∧
    handleImport realNames canonicalpath libpaths st ImportType.fail name = st ∧
    mainScanLoop realNames canonicalpath libpaths pastEnd fuel p st =
      (scanLoop pastEnd fuel p).1.foldl
        (fun s r => handleImport realNames canonicalpath libpaths s r.1 r.2) st := by
  refine ⟨?_, ?_, ?_, mainScanLoop_eq_foldl realNames canonicalpath libpaths pastEnd fuel p st⟩
  · simp [handleImport, call_calls]
  · have h : handleImport realNames canonicalpath libpaths st ImportType.angles name =
        libpaths.foldl (fun s libpath => s.call realNames (pathAppend libpath name)) st := by
      simp [handleImport]
    rw [h]
    exact foldl_call_calls realNames name libpaths st
  · simp [handleImport]


/-! ## The driver: the pass over an entry's own lower-cased path -/

theorem tolower_ne_slash (c : Nat) : (tolower c != 47) = (c != 47) := by
  unfold tolower
  split
  · next h =>
    have h1 : c + 32 ≠ 47 := by omega
    have h2 : c ≠ 47 := by omega
    rw [bne_iff_ne.mpr h1, bne_iff_ne.mpr h2]
  · rfl

theorem tolower_tolower (c : Nat) : tolower (tolower c) = tolower c := by
  unfold tolower
  split
  · next h =>
    have h2 : ¬ (65 ≤ c + 32 ∧ c + 32 ≤ 90) := by omega
    rw [if_neg h2]
  · rfl

theorem lowerstring_lowerstring (str : List Nat) :
    lowerstring (lowerstring str) = lowerstring str := by
  simp [lowerstring, tolower_tolower]

theorem takeWhile_lowerstring (l : List Nat) :
    (lowerstring l).takeWhile (fun c => c != 47) =
      lowerstring (l.takeWhile (fun c => c != 47)) := by
  induction l with
  | nil => rfl
  | cons x l ih =>
    simp only [lowerstring, List.map_cons, List.takeWhile_cons, tolower_ne_slash] at ih ⊢
    split
    · simp only [List.map_cons]
      rw [ih]
    · rfl

/-- Folding a path to lower case folds its filename. -/
theorem filename_lowerstring (p : List Nat) :
    filename (lowerstring p) = lowerstring (filename p) := by
  have hrev : (lowerstring p).reverse = lowerstring p.reverse := by
    simp [lowerstring]
  simp only [filename, hrev, takeWhile_lowerstring]
  simp [lowerstring]

/-- C17, as stated, fails: the tree `/R` holds the real directory `/R/Src` and no entry
`/R/src`; the pass over that entry calls `createSymlinkIfNecessary("/r/src")`, whose
parent `/r` does not exist, so that the exception is caught and no symlink is made. -/
theorem self_case_fix_refuted :
    RealNames.construct upperFs [bytes "/R/Src"] = some upperIndex ∧
      is_symlink upperFs (bytes "/R/Src") = false ∧
      is_directory upperFs (bytes "/R/Src") = some true ∧
      symlink_status upperFs (bytes "/R/src") = none ∧
      selfCasePass upperIndex ⟨upperFs, [], []⟩ (bytes "/R/Src") =
        some ⟨upperFs, [Output.ignoredError], [bytes "/r/src"]⟩ ∧
      symlink_status upperFs (bytes "/r/src") = none := by
  decide

/-- C17, amended: for a real directory `e` of the tree with canonical path `path` that
is the first entry to fold to its key, when the parent of the lower-cased path exists
and canonicalizes to the parent of `path`, and the lower-cased path names a missing
entry of that directory, the pass of the driver over `e` makes a symlink of directory
kind at the lower-cased path that points at `path`, and prints the mapping. -/
theorem self_case_fix (st : Driver) (pre post : List (List Nat)) (e path : List Nat)
    (idx : RealNames) (loc : List (List Nat))
    (hbuild : RealNames.construct st.fs (pre ++ e :: post) = some idx)
    (hs : is_symlink st.fs e = false) (hc : canonical st.fs e = some path)
    (hdir : is_directory st.fs path = some true)
    (hfirst : ∀ e0 ∈ pre, is_symlink st.fs e0 = false →
      (canonical st.fs e0).map lowerstring ≠ some (lowerstring path))
    (hparent : canonical st.fs (parent_path (lowerstring path)) = some (parent_path path))
    (hmissing : st.fs.locate false (lowerstring path) = WalkResult.missingLast loc) :
    selfCasePass idx st e =
        some ⟨st.fs.addEntry loc (Node.symlink path true),
          st.printed ++ [Output.mapping path (lowerstring path)],
          st.calls ++ [lowerstring path]⟩ ∧
      symlink_status (st.fs.addEntry loc (Node.symlink path true)) (lowerstring path) =
        some (Node.symlink path true) := by
  have hkey := lookupKey_case_variant st.fs e path (lowerstring path) hc
    (by rw [filename_lowerstring, lowerstring_lowerstring]) hparent
  unfold RealNames.construct at hbuild
  cases hm : RealNames.constructLoop st.fs (pre ++ e :: post) [] with
  | none =>
    rw [hm] at hbuild
    simp at hbuild
  | some m =>
    rw [hm] at hbuild
    simp only [Option.map_some', Option.some.injEq] at hbuild
    subst hbuild
    have hreg : RealNames.realNameRegistered ⟨m⟩ st.fs (lowerstring path) = some true := by
      simp only [RealNames.realNameRegistered, hkey, Option.map_some']
      rw [constructLoop_contains st.fs pre post e path m hm hs hc]
    have hrn : RealNames.realName ⟨m⟩ st.fs (lowerstring path) = some path := by
      simp only [RealNames.realName, hkey, Option.some_bind]
      exact constructLoop_first st.fs pre post e path m hm hs hc
        (fun e0 he hse q hq hl => hfirst e0 he hse (by rw [hq, Option.map_some', hl]))
    have hex := pathExists_of_missingLast st.fs (lowerstring path) loc hmissing
    have hcall : symlinkCall st.fs path (lowerstring path) true =
        some (st.fs.addEntry loc (Node.symlink path true)) := by
      simp [symlinkCall, hmissing]
    have hres : RealNames.createSymlinkIfNecessary ⟨m⟩ st.fs (lowerstring path) =
        (st.fs.addEntry loc (Node.symlink path true),
          [Output.mapping path (lowerstring path)]) := by
      simp [RealNames.createSymlinkIfNecessary, hreg, hrn, hex, hdir,
        create_directory_symlink, hcall]
    refine ⟨?_, symlink_status_after_symlinkCall st.fs _ path _ true hcall⟩
    simp [selfCasePass, hc, Driver.call, hres]

theorem self_case_fix_witness :
    selfCasePass sampleIndex ⟨sampleFs, [], []⟩ (bytes "/r/Src") =
        some ⟨sampleFs.addEntry [bytes "r", bytes "src"] (Node.symlink (bytes "/r/Src") true),
          [] ++ [Output.mapping (bytes "/r/Src") (lowerstring (bytes "/r/Src"))],
          [] ++ [lowerstring (bytes "/r/Src")]⟩ ∧
      symlink_status
          (sampleFs.addEntry [bytes "r", bytes "src"] (Node.symlink (bytes "/r/Src") true))
          (lowerstring (bytes "/r/Src")) = some (Node.symlink (bytes "/r/Src") true) :=
  self_case_fix ⟨sampleFs, [], []⟩ [bytes "/r/a.h", bytes "/r/A.h"]
    [bytes "/r/lost.h", bytes "/r/LOST.H"] (bytes "/r/Src") (bytes "/r/Src") sampleIndex
    [bytes "r", bytes "src"] (by decide) (by decide) (by decide) (by decide) (by decide)
    (by decide) (by decide)


/-! ## The scanner stays on the line of its directive -/

theorem skipLoop_le_stop (cond : Nat → Bool) (l : List Nat) (c i x : Nat)
    (hx : l[i]? = some x) (hc : cond x = false) : skipLoop cond l c ≤ c + i := by
  induction l generalizing c i with
  | nil => simp at hx
  | cons y l ih =>
    simp only [skipLoop]
    split
    · next hy =>
      cases i with
      | zero =>
        simp only [List.getElem?_cons_zero, Option.some.injEq] at hx
        rw [hx, hc] at hy
        simp at hy
      | succ i =>
        simp only [List.getElem?_cons_succ] at hx
        have := ih (c + 1) i hx
        omega
    · omega

theorem tryParseLoop_le_stop (str l : List Nat) (c t i x : Nat)
    (h : tryParseLoop str l c = some t) (hx : l[i]? = some x) (hstr : x ∉ str) :
    t ≤ c + i := by
  induction str generalizing l c i with
  | nil =>
    simp only [tryParseLoop, Option.some.injEq] at h
    omega
  | cons s str ih =>
    cases l with
    | nil => simp at hx
    | cons y l =>
      simp only [tryParseLoop] at h
      split at h
      · simp at h
      · next hy =>
        have hys : y = s := by simpa using hy
        cases i with
        | zero =>
          simp only [List.getElem?_cons_zero, Option.some.injEq] at hx
          exact absurd (by rw [← hx, hys]; simp) hstr
        | succ i =>
          simp only [List.getElem?_cons_succ] at hx
          have := ih l (c + 1) i h hx (fun hm => hstr (by simp [hm]))
          omega

theorem readLoop_le_stop (endChar : Nat) (l : List Nat) (c i x : Nat) (out : List Nat)
    (hx : l[i]? = some x) (hlb : x = 10 ∨ x = 13) :
    (readLoop endChar l c out).1 ≤ c + i := by
  induction l generalizing c i out with
  | nil => simp at hx
  | cons y l ih =>
    simp only [readLoop]
    split
    · next hy =>
      cases i with
      | zero =>
        simp only [List.getElem?_cons_zero, Option.some.injEq] at hx
        rcases hlb with hlb | hlb <;> simp [hx, hlb] at hy
      | succ i =>
        simp only [List.getElem?_cons_succ] at hx
        have := ih (c + 1) i (out ++ [y]) hx
        omega
    · simp

theorem lineBound_refl (B : Nat) (p : Parser) : p.LineBound B p :=
  ⟨rfl, fun _ h => h⟩

theorem lineBound_trans {B : Nat} {p q r : Parser} (h1 : p.LineBound B q)
    (h2 : q.LineBound B r) : p.LineBound B r := by
  obtain ⟨a1, a2⟩ := h1
  obtain ⟨b1, b2⟩ := h2
  refine ⟨by rw [b1, a1], fun hlb hp => ?_⟩
  exact b2 (by rw [a1]; exact hlb) (a2 hlb hp)

theorem lineBound_of_cursor (B : Nat) (p : Parser) (c : Nat)
    (h : ∀ i lb, p.rest[i]? = some lb → (lb = 10 ∨ lb = 13) → c ≤ p.cursor + i) :
    p.LineBound B ⟨p.data, c⟩ := by
  refine ⟨rfl, fun hlb hp => ?_⟩
  obtain ⟨lb, hB, hl⟩ := hlb
  have hr : p.rest[B - p.cursor]? = some lb := by
    simp only [Parser.rest, List.getElem?_drop]
    rw [← hB]
    congr 1
    omega
  have := h (B - p.cursor) lb hr hl
  simp only
  omega

theorem lineBound_skipNonlinebreakWhitespace (B : Nat) (p : Parser) :
    p.LineBound B p.skipNonlinebreakWhitespace :=
  lineBound_of_cursor B p _ (fun i lb hi hl =>
    skipLoop_le_stop _ _ _ i lb hi (by
      rcases hl with hl | hl <;> simp [hl, isNonlinebreakSpace]))

theorem lineBound_skipUntilNextLine (B : Nat) (p : Parser) :
    p.LineBound B p.skipUntilNextLine :=
  lineBound_of_cursor B p _ (fun i lb hi hl =>
    skipLoop_le_stop _ _ _ i lb hi (by
      rcases hl with hl | hl <;> simp [hl, notLinebreak]))

theorem lineBound_tryParse (B : Nat) (p : Parser) (str : List Nat)
    (hstr : 10 ∉ str ∧ 13 ∉ str) : p.LineBound B (p.tryParse str).2 := by
  unfold Parser.tryParse
  cases h : tryParseLoop str p.rest p.cursor with
  | none => exact lineBound_refl B p
  | some t =>
    exact lineBound_of_cursor B p t (fun i lb hi hl =>
      tryParseLoop_le_stop str p.rest p.cursor t i lb h hi (by
        rcases hl with hl | hl
        · rw [hl]; exact hstr.1
        · rw [hl]; exact hstr.2))

theorem lineBound_tryReadImportFileName (B pastEnd : Nat) (p : Parser) (out : List Nat)
    (endChar : Nat) : p.LineBound B (p.tryReadImportFileName pastEnd out endChar).2.1 :=
  lineBound_of_cursor B p _ (fun i lb hi hl => readLoop_le_stop _ _ _ i lb _ hi hl)

/-- Behind its first skip of whitespace `tryGetImport` does not pass a line break. -/
theorem tryGetImport_lineBound (B pastEnd : Nat) (p : Parser) (out : List Nat) :
    p.skipAllWhitespace.LineBound B (p.tryGetImport pastEnd out).2.1 := by
  have hHash : (10 : Nat) ∉ strHash ∧ (13 : Nat) ∉ strHash := by decide
  have hIncl : (10 : Nat) ∉ strInclude ∧ (13 : Nat) ∉ strInclude := by decide
  have hQuote : (10 : Nat) ∉ [chQuote] ∧ (13 : Nat) ∉ [chQuote] := by decide
  have hLess : (10 : Nat) ∉ [chLess] ∧ (13 : Nat) ∉ [chLess] := by decide
  have hGreater : (10 : Nat) ∉ [chGreater] ∧ (13 : Nat) ∉ [chGreater] := by decide
  have sU := lineBound_skipUntilNextLine B
  have sN := lineBound_skipNonlinebreakWhitespace B
  have sR := lineBound_tryReadImportFileName B pastEnd
  have sP := lineBound_tryParse B
  simp only [Parser.tryGetImport]
  split_ifs <;>
    repeat (first
      | with_reducible exact lineBound_refl _ _
      | with_reducible refine lineBound_trans ?_ (sU _)
      | with_reducible refine lineBound_trans ?_ (sN _)
      | with_reducible refine lineBound_trans ?_ (sP _ _ hHash)
      | with_reducible refine lineBound_trans ?_ (sP _ _ hIncl)
      | with_reducible refine lineBound_trans ?_ (sP _ _ hQuote)
      | with_reducible refine lineBound_trans ?_ (sP _ _ hLess)
      | with_reducible refine lineBound_trans ?_ (sP _ _ hGreater)
      | with_reducible refine lineBound_trans ?_ (sR _ _ _))


theorem skipLoop_stop (cond : Nat → Bool) (l : List Nat) (x : Nat)
    (h : (l.drop (skipLoop cond l 0)).head? = some x) : cond x = false := by
  induction l with
  | nil => simp [skipLoop] at h
  | cons y l ih =>
    simp only [skipLoop] at h
    split at h
    · have e : skipLoop cond l (0 + 1) = skipLoop cond l 0 + 1 := by
        rw [Nat.add_comm 0 1, skipLoop_shift, Nat.add_comm]
      rw [e, List.drop_succ_cons] at h
      exact ih h
    · next hy =>
      simp only [List.drop_zero, List.head?_cons, Option.some.injEq] at h
      rw [← h]
      simpa using hy

/-- Where `skipUntilNextLine` stops, a byte is a line break. -/
theorem skipUntilNextLine_head (p : Parser) (x : Nat)
    (h : p.skipUntilNextLine.rest.head? = some x) : x = 10 ∨ x = 13 := by
  have e : p.skipUntilNextLine.rest = p.rest.drop (skipLoop notLinebreak p.rest 0) := by
    simp only [Parser.skipUntilNextLine, Parser.rest]
    have := skipLoop_shift notLinebreak (List.drop p.cursor p.data) p.cursor 0
    rw [Nat.add_zero] at this
    rw [this, List.drop_drop]
  rw [e] at h
  have hc := skipLoop_stop notLinebreak p.rest x h
  simp only [notLinebreak, Bool.and_eq_false_iff, bne_eq_false_iff_eq] at hc
  exact hc

/-- Every failing way through `tryGetImport` ends with `skipUntilNextLine`. -/
theorem tryGetImport_fail_form (pastEnd : Nat) (p : Parser) (out : List Nat)
    (h : (p.tryGetImport pastEnd out).1 = ImportType.fail) :
    ∃ q : Parser, (p.tryGetImport pastEnd out).2.1 = q.skipUntilNextLine := by
  simp only [Parser.tryGetImport] at h ⊢
  split_ifs at h ⊢
  all_goals exact ⟨_, rfl⟩

/-! ## The scanner: abandon policy -/

/-- C19: for every buffer and cursor inside it, when `tryGetImport` returns `fail` the
cursor rests at the end of the buffer or on a `\n` or `\r` byte; and no byte between
the place reached by the first skip of whitespace and the final cursor is a line
break, so that the attempt consumes at most the rest of one line. -/
theorem abandon_policy (pastEnd : Nat) (p : Parser) (out : List Nat)
    (hv : p.cursor ≤ p.data.length) :
    ((p.tryGetImport pastEnd out).1 = ImportType.fail →
      (p.tryGetImport pastEnd out).2.1.atEnd = true ∨
        ∃ lb, (p.tryGetImport pastEnd out).2.1.rest.head? = some lb ∧ (lb = 10 ∨ lb = 13)) ∧
    (∀ i x, p.skipAllWhitespace.cursor ≤ i → i < (p.tryGetImport pastEnd out).2.1.cursor →
      p.data[i]? = some x → x ≠ 10 ∧ x ≠ 13) := by
  constructor
  · intro hfail
    obtain ⟨q, hq⟩ := tryGetImport_fail_form pastEnd p out hfail
    have hr := tryGetImport_reaches pastEnd p out
    cases hh : (p.tryGetImport pastEnd out).2.1.rest.head? with
    | none =>
      left
      have hnil : (p.tryGetImport pastEnd out).2.1.rest = [] := by
        simpa using hh
      have hlen := rest_length (p.tryGetImport pastEnd out).2.1
      rw [hnil, hr.1] at hlen
      have hle := hr.2.2 hv
      simp only [Parser.atEnd, hr.1, beq_iff_eq]
      simp only [List.length_nil] at hlen
      omega
    | some lb =>
      right
      refine ⟨lb, rfl, ?_⟩
      rw [hq] at hh
      exact skipUntilNextLine_head q lb hh
  · intro i x hi1 hi2 hx
    have hb := tryGetImport_lineBound i pastEnd p out
    by_contra hcon
    have hlb : x = 10 ∨ x = 13 := by
      by_cases h10 : x = 10
      · exact Or.inl h10
      · by_cases h13 : x = 13
        · exact Or.inr h13
        · exact absurd ⟨h10, h13⟩ hcon
    have := hb.2 ⟨x, hx, hlb⟩ hi1
    omega

theorem abandon_policy_witness :
    ((Parser.tryGetImport 0 ⟨[120, 35, 10, 121], 0⟩ []).1 = ImportType.fail →
      (Parser.tryGetImport 0 ⟨[120, 35, 10, 121], 0⟩ []).2.1.atEnd = true ∨
        ∃ lb, (Parser.tryGetImport 0 ⟨[120, 35, 10, 121], 0⟩ []).2.1.rest.head? = some lb ∧
          (lb = 10 ∨ lb = 13)) ∧
    (∀ i x, (Parser.skipAllWhitespace ⟨[120, 35, 10, 121], 0⟩).cursor ≤ i →
      i < (Parser.tryGetImport 0 ⟨[120, 35, 10, 121], 0⟩ []).2.1.cursor →
      ([120, 35, 10, 121] : List Nat)[i]? = some x → x ≠ 10 ∧ x ≠ 13) :=
  abandon_policy 0 ⟨[120, 35, 10, 121], 0⟩ [] (by decide)


/-! ## The scanner finds a directive at the start of a line -/

theorem getElem?_lt_length (u : List Nat) (j x : Nat) (h : u[j]? = some x) :
    j < u.length := by
  by_contra hc
  rw [List.getElem?_eq_none (by omega)] at h
  simp at h

theorem safePrefix_drop (u : List Nat) (k : Nat) (h : SafePrefix u) :
    SafePrefix (u.drop k) := by
  intro i x hi hx
  rw [List.getElem?_drop] at hi
  obtain ⟨j, lb, hj, hjl, hlb⟩ := h (k + i) x hi hx
  refine ⟨j - k, lb, by omega, ?_, hlb⟩
  rw [List.getElem?_drop, ← hjl]
  congr 1
  omega

/-- Whitespace behind a line break, or at the start, is a safe prefix. -/
theorem safePrefix_of_line_start (pre ws : List Nat)
    (hpre : pre = [] ∨ ∃ pre0 lb, pre = pre0 ++ [lb] ∧ (lb = 10 ∨ lb = 13))
    (hws : ∀ x ∈ ws, isspace x = true) : SafePrefix (pre ++ ws) := by
  intro i x hi hx
  have hlt : i < pre.length := by
    by_contra hc
    rw [List.getElem?_append_right (by omega)] at hi
    have := hws x (List.mem_iff_getElem?.mpr ⟨_, hi⟩)
    rw [this] at hx
    simp at hx
  rcases hpre with hp | ⟨pre0, lb, hp, hlb⟩
  · rw [hp] at hlt
    simp at hlt
  · subst hp
    have hlast : (pre0 ++ [lb] ++ ws)[pre0.length]? = some lb := by
      rw [List.getElem?_append_left (by simp)]
      rw [List.getElem?_append_right (Nat.le_refl _)]
      simp
    refine ⟨pre0.length, lb, ?_, hlast, hlb⟩
    by_contra hc
    have hi0 : i = pre0.length := by
      simp only [List.length_append, List.length_singleton] at hlt
      omega
    rw [hi0, hlast] at hi
    injection hi with hi
    rw [← hi] at hx
    rcases hlb with hlb | hlb <;> simp [hlb, isspace] at hx

/-- From a cursor in a safe prefix of a well-formed quoted directive the scan loop
comes to the directive and reports it. -/
theorem scanLoop_finds (pastEnd : Nat) (h1 h2 name post : List Nat)
    (hh1 : ∀ x ∈ h1, isNonlinebreakSpace x = true)
    (hh2 : ∀ x ∈ h2, isNonlinebreakSpace x = true)
    (hname : ∀ x ∈ name, x ≠ 10 ∧ x ≠ 13 ∧ x ≠ chQuote)
    (n : Nat) (u : List Nat) (hn : u.length ≤ n) (p : Parser) (fuel : Nat)
    (hrest : p.rest = u ++ (strHash ++ (h1 ++ (strInclude ++ (h2 ++
      (chQuote :: (name ++ (chQuote :: post))))))))
    (hu : SafePrefix u) (hfuel : p.data.length - p.cursor ≤ fuel) :
    (ImportType.quotes, name) ∈ (scanLoop pastEnd fuel p).1 := by
  induction n generalizing u p fuel with
  | zero =>
    have hnil : u = [] := List.length_eq_zero.mp (by omega)
    subst hnil
    obtain ⟨d, c⟩ := p
    have hlen := rest_length ⟨d, c⟩
    rw [hrest] at hlen
    simp only [List.nil_append, List.length_append, strHash, List.length_singleton] at hlen
    have hne : (⟨d, c⟩ : Parser).atEnd = false := by
      simp only [Parser.atEnd, beq_eq_false_iff_ne]
      omega
    obtain ⟨f, rfl⟩ : ∃ f, fuel = f + 1 := ⟨fuel - 1, by simp only at hfuel; omega⟩
    rw [scanLoop_succ pastEnd f _ hne,
      tryGetImport_quotes_at pastEnd d c [] h1 h2 name post [] hrest (by simp) hh1 hh2 hname]
    simp
  | succ n ih =>
    obtain ⟨d, c⟩ := p
    have hlen := rest_length ⟨d, c⟩
    rw [hrest] at hlen
    simp only [List.length_append, strHash, List.length_singleton] at hlen
    have hne : (⟨d, c⟩ : Parser).atEnd = false := by
      simp only [Parser.atEnd, beq_eq_false_iff_ne]
      omega
    have hlt : c < d.length := by omega
    obtain ⟨f, rfl⟩ : ∃ f, fuel = f + 1 := ⟨fuel - 1, by simp only at hfuel; omega⟩
    rw [scanLoop_succ pastEnd f _ hne]
    by_cases hall : ∀ x ∈ u, isspace x = true
    · rw [tryGetImport_quotes_at pastEnd d c u h1 h2 name post [] hrest hall hh1 hh2 hname]
      simp
    · simp only [not_forall] at hall
      obtain ⟨x, hxu, hx⟩ := hall
      have hx : isspace x = false := by simpa using hx
      obtain ⟨i, hi⟩ := List.mem_iff_getElem?.mp hxu
      obtain ⟨j, lb, hij, hj, hlb⟩ := hu i x hi hx
      have hjlt := getElem?_lt_length u j lb hj
      have hilt := getElem?_lt_length u i x hi
      have hrest_i : (Parser.rest ⟨d, c⟩)[i]? = some x := by
        rw [hrest, List.getElem?_append_left hilt]
        exact hi
      have hdata_j : d[c + j]? = some lb := by
        have : (Parser.rest ⟨d, c⟩)[j]? = some lb := by
          rw [hrest, List.getElem?_append_left hjlt]
          exact hj
        simpa [Parser.rest, List.getElem?_drop] using this
      have hskip : (Parser.skipAllWhitespace ⟨d, c⟩).cursor ≤ c + j := by
        have := skipLoop_le_stop isspace (Parser.rest ⟨d, c⟩) c i x hrest_i hx
        simp only [Parser.skipAllWhitespace]
        omega
      have hb := (tryGetImport_lineBound (c + j) pastEnd ⟨d, c⟩ []).2 ⟨lb, hdata_j, hlb⟩ hskip
      have hreach := tryGetImport_reaches pastEnd ⟨d, c⟩ []
      have hprog := tryGetImport_progress pastEnd ⟨d, c⟩ [] hlt
      simp only at hprog
      apply List.mem_cons_of_mem
      apply ih (u.drop ((Parser.tryGetImport pastEnd ⟨d, c⟩ []).2.1.cursor - c))
      · rw [List.length_drop]
        omega
      · have hd : (Parser.tryGetImport pastEnd ⟨d, c⟩ []).2.1.data = d := hreach.1
        have hdrop : (Parser.tryGetImport pastEnd ⟨d, c⟩ []).2.1.rest =
            (Parser.rest ⟨d, c⟩).drop
              ((Parser.tryGetImport pastEnd ⟨d, c⟩ []).2.1.cursor - c) := by
          simp only [Parser.rest, hd, List.drop_drop]
          congr 1
          omega
        rw [hdrop, hrest, List.drop_append_of_le_length (by omega)]
      · exact safePrefix_drop u _ hu
      · rw [hreach.1]
        simp only at hfuel ⊢
        omega


/-! ## The scanner: where a directive is recognized -/

/-- C14, as stated, fails: the buffer `// #include "a.h"` holds a well-formed directive
with the name `a.h`, and draining it is one failing call that skips the whole line. -/
theorem directive_behind_text_missed :
    commentedDirective =
        [47, 47, 32] ++ (strHash ++ strInclude ++ [32] ++ [chQuote] ++ [97, 46, 104] ++
          [chQuote]) ∧
      (scanFile 0 commentedDirective).1 = [(ImportType.fail, [])] ∧
      (scanFile 0 commentedDirective).2.atEnd = true ∧
      (ImportType.quotes, [97, 46, 104]) ∉ (scanFile 0 commentedDirective).1 := by
  decide

/-- C14, amended: when a well-formed directive `# include "name"` is the first text on
its line, that is only whitespace stands between it and the line break before it or
the start of the buffer, then whatever the lines before it hold and whatever follows
the directive, draining the buffer reports a `quotes` result with that name. -/
theorem directive_at_line_start_found (pastEnd : Nat)
    (pre ws h1 h2 name post : List Nat)
    (hpre : pre = [] ∨ ∃ pre0 lb, pre = pre0 ++ [lb] ∧ (lb = 10 ∨ lb = 13))
    (hws : ∀ x ∈ ws, isspace x = true)
    (hh1 : ∀ x ∈ h1, isNonlinebreakSpace x = true)
    (hh2 : ∀ x ∈ h2, isNonlinebreakSpace x = true)
    (hname : ∀ x ∈ name, x ≠ chQuote ∧ x ≠ 10 ∧ x ≠ 13) :
    (ImportType.quotes, name) ∈
      (scanFile pastEnd (pre ++ ws ++ strHash ++ h1 ++ strInclude ++ h2 ++ [chQuote] ++
        name ++ [chQuote] ++ post)).1 := by
  unfold scanFile
  exact scanLoop_finds pastEnd h1 h2 name post hh1 hh2
    (fun x hx => ⟨(hname x hx).2.1, (hname x hx).2.2, (hname x hx).1⟩)
    (pre ++ ws).length (pre ++ ws) (Nat.le_refl _) ⟨_, 0⟩ _
    (by simp [Parser.rest]) (safePrefix_of_line_start pre ws hpre hws) (Nat.sub_le _ _)

theorem directive_at_line_start_found_witness :
    (ImportType.quotes, [97, 46, 104]) ∈
      (scanFile 0 ([47, 47, 32, 120, 10] ++ [32] ++ strHash ++ [] ++ strInclude ++ [32] ++
        [chQuote] ++ [97, 46, 104] ++ [chQuote] ++ [32, 47, 47])).1 :=
  directive_at_line_start_found 0 [47, 47, 32, 120, 10] [32] [] [32] [97, 46, 104]
    [32, 47, 47] (Or.inr ⟨[47, 47, 32, 120], 10, rfl, Or.inl rfl⟩)
    (by decide) (by decide) (by decide) (by decide)

end Cisim
